import Mathlib

/-!
Verification of the `algs-codex` repository: a Fibonacci heap (with its
supporting circular doubly-linked list) and a van Emde Boas tree.

The development shallowly embeds the Python sources:

* `src/datastrucutres/vebtree.py` — the helpers `high`, `low`, `index` and the
  class `VEBTree` (fields `u`, `min`, `max`, `summary`, `cluster`).  Universe
  sizes are restricted to `u = 2^(2^k)`, exactly as the constructor's
  docstring demands, so the tree is embedded as a family `VEBTree k` indexed
  by the tower height `k`.  Python's `math.floor(math.sqrt u)` and
  `math.floor (x / ru)` are modelled by `Nat.sqrt` and `Nat` division, which
  agree with them on the integer inputs that occur here.
* `src/dataStructures/fibHeap.py` — the class `CircularDLL` is embedded twice,
  at two levels of abstraction:
  - a pointer-level state (`CircularDLL`: the `left`/`right` attributes of the
    items plus the `start` anchor) for the claims about the link fields
    themselves, and
  - an observational level used inside the heap model: a well-formed ring is
    observed through `items()` as the list of its members from `start`
    following `right`, under which `insert` appends at the end, `merge`
    concatenates and `delete` removes and rotates the list to start at the
    deleted item's right neighbour.
* the class `FibHeap` over items `FibHeapHItem` (fields `key`, `marked`,
  `degree`, `parent`, `children`).  Since child rings are owned by their
  parent, a heap item is a rose tree `HTree`; `parent` is represented by the
  tree structure itself (an item is a root iff it sits in the root list), and
  a heap is the list of its root trees plus the `min` reference (an index
  into the root list — every `min` assignment in the source targets a root)
  and the counter `n`.  Handles to interior items, as used by
  `decrease_key`, are paths: the position of a root in the root list followed
  by positions in the successive `children` rings.

Runtime faults of the Python code (`AttributeError`, failed `assert`) are
modelled with `Except PyErr`.
-/

/-- Errors raised by the modelled Python code. -/
inductive PyErr : Type where
  /-- An attribute access on `None`, or on an object lacking the attribute. -/
  | attributeError : PyErr
  /-- A failed `assert` statement. -/
  | assertionError : PyErr
  /-- A state the source relies on never materialising (e.g. a `min`
  reference that does not point at a root): the operation is modelled as
  faulting there, and the development proves such branches unreachable
  under the stated hypotheses. -/
  | brokenInvariant : PyErr
deriving Repr, DecidableEq

/-! ## vEB helpers (`vebtree.py`, lines 18–37)

`ru = math.floor(math.sqrt u)`: for the admitted universe sizes
`u = 2^(2^k)` the float square root is exact (`sqrt_upow` below), so `ru`
is `Nat.sqrt u`.  The quotient `x / ru` in `high`, however, is Python 3
true division of ints: CPython computes the correctly rounded IEEE-754
binary64 value of the exact rational quotient (`long_true_divide`), which
differs from exact integer division once the quotient needs more than the
53 significand bits of a double; `math.floor` of that double is modelled
by `floorTrueDiv` below.  `low` (`x % ru`) and `index` (`(x * ru) + y`)
are exact integer arithmetic on ints. -/

/-- Rounding of the rational `num / den` (for `den > 0`) to the nearest
natural number, ties to even — the IEEE-754 default rounding applied at
integer granularity. -/
def roundHE (num den : Nat) : Nat :=
  if 2 * (num % den) < den then num / den
  else if den < 2 * (num % den) then num / den + 1
  else if num / den % 2 = 0 then num / den else num / den + 1

/-- Value of `math.floor (a / b)` where `/` is Python 3 true division of
ints: the correctly rounded binary64 double of the exact quotient `a / b`,
floored.  With `e = ⌊log₂ (a / b)⌋` the double's significand granularity
at the quotient's binade is `2 ^ (e - 52)`; the quotient is scaled by
`2 ^ (52 - e)` so that rounding half-to-even at integer granularity
(`roundHE`) applies, and the floor of the scaled-back result is returned.
For `a < b` the binade exponent is `-d` with `d` minimal such that
`a * 2 ^ d ≥ b` (and `d = ⌊log₂ ((b - 1) / a)⌋ + 1`).  The quotients
arising from the claims stay far below the binary64 overflow threshold
`2 ^ 1024` and above the subnormal range, so neither regime is
modelled. -/
def floorTrueDiv (a b : Nat) : Nat :=
  if a = 0 then 0
  else if b ≤ a then
    if Nat.log2 (a / b) ≤ 52 then
      roundHE (a * 2 ^ (52 - Nat.log2 (a / b))) b / 2 ^ (52 - Nat.log2 (a / b))
    else
      roundHE a (b * 2 ^ (Nat.log2 (a / b) - 52)) * 2 ^ (Nat.log2 (a / b) - 52)
  else
    roundHE (a * 2 ^ (Nat.log2 ((b - 1) / a) + 1 + 52)) b
      / 2 ^ (Nat.log2 ((b - 1) / a) + 1 + 52)

/-- Value of the "high bits" of `x` in universe size `u`:
`math.floor (x / ru)` with `ru = math.floor (math.sqrt u)`, where the
division is float true division. -/
def high (x u : Nat) : Nat := floorTrueDiv x (Nat.sqrt u)

/-- Value of the "low bits" of `x` in universe size `u`: `x % ru`. -/
def low (x u : Nat) : Nat := x % Nat.sqrt u

/-- Original index of an element from its high and low bits: `(x * ru) + y`. -/
def index (x y u : Nat) : Nat := x * Nat.sqrt u + y

/-! ## Pointer-level circular doubly-linked list (`fibHeap.py`, lines 21–141)

Items are identified by numbers; the state records each item's `left` and
`right` attribute (`none` models Python `None`) together with the list's
`start` anchor.  Only `delete` is needed at this level of abstraction. -/

/-- State of a `CircularDLL` together with the link attributes of the items.
`left i` / `right i` are the `left` and `right` attributes of item `i`. -/
structure CircularDLL where
  left : Nat → Option Nat
  right : Nat → Option Nat
  start : Option Nat

/-- Model of `CircularDLL.delete` (lines 119–141).  `item != item.left`
selects the general case, which relinks the two neighbours and
unconditionally sets `start` to `item.right`, leaving `item`'s own links
untouched; the singleton case clears `item`'s links and empties the list.
The branch where a neighbour attribute is `None` cannot occur for a member
of a well-formed ring and is modelled as leaving the state unchanged. -/
def CircularDLL.delete (s : CircularDLL) (item : Nat) : CircularDLL :=
  if s.left item ≠ some item then
    match s.left item, s.right item with
    | some leftNeighbour, some rightNeighbour =>
      { left := Function.update s.left rightNeighbour (some leftNeighbour)
        right := Function.update s.right leftNeighbour (some rightNeighbour)
        start := some rightNeighbour }
    | _, _ => s
  else
    { left := Function.update s.left item none
      right := Function.update s.right item none
      start := none }

/-- Ring with members `0 ↔ 1` (each the other's left and right neighbour),
anchored at `0`. -/
def twoRing : CircularDLL :=
  { left := fun i => if i = 0 then some 1 else if i = 1 then some 0 else none
    right := fun i => if i = 0 then some 1 else if i = 1 then some 0 else none
    start := some 0 }

/-- Ring `0 → 1 → 2 → 0` anchored at `0`. -/
def threeRing : CircularDLL :=
  { left := fun i =>
      if i = 0 then some 2 else if i = 1 then some 0 else
      if i = 2 then some 1 else none
    right := fun i =>
      if i = 0 then some 1 else if i = 1 then some 2 else
      if i = 2 then some 0 else none
    start := some 0 }

/-! ### Theorems for C10 and C8 (those for C9 follow the arithmetic facts
about the tower universes below) -/

/-- C10: on a list with at least two members (`x.left ≠ x`, as tested by the
source) `delete x` sets `start` to `x`'s former right neighbour — also when
`x` was not the anchor. -/
theorem CircularDLL.delete_start_eq_right (s : CircularDLL) (x l r : Nat)
    (hl : s.left x = some l) (hr : s.right x = some r) (hlx : l ≠ x) :
    (s.delete x).start = some r := by
  unfold CircularDLL.delete
  have hcond : s.left x ≠ some x := by
    rw [hl]; intro h; exact hlx (Option.some.inj h)
  rw [if_pos hcond, hl, hr]

/-- Witness for C10: deleting the non-anchor member `1` of the three-ring
moves `start` to `2`. -/
theorem CircularDLL.delete_start_eq_right_witness :
    (threeRing.delete 1).start = some 2 :=
  CircularDLL.delete_start_eq_right threeRing 1 0 2 (by decide) (by decide)
    (by decide)

/-- Counterexample for C8: deleting member `1` from the two-membered ring
leaves `1`'s `left` and `right` attributes pointing at `0` — they are not
cleared, contradicting the claim that after `delete x` both of `x`'s link
fields are absent. -/
theorem CircularDLL.delete_not_cleared :
    ¬(((twoRing.delete 1).left 1 = none) ∧ ((twoRing.delete 1).right 1 = none)) := by
  decide

/-- C8 (amended): after `delete x`, if `x` was the sole member then `x`'s
links are cleared and `start` becomes absent; otherwise (at least two
members) `x`'s `left` and `right` attributes are left unchanged and `start`
becomes `x`'s former right neighbour whether or not `x` was the anchor. -/
theorem CircularDLL.delete_spec (s : CircularDLL) (x : Nat) :
    (s.left x = some x →
      (s.delete x).left x = none ∧ (s.delete x).right x = none ∧
      (s.delete x).start = none) ∧
    (∀ l r, s.left x = some l → s.right x = some r → l ≠ x → r ≠ x →
      (s.delete x).left x = s.left x ∧ (s.delete x).right x = s.right x ∧
      (s.delete x).start = some r) := by
  constructor
  · intro hx
    have hd : s.delete x =
        { left := Function.update s.left x none
          right := Function.update s.right x none
          start := none } := by
      unfold CircularDLL.delete
      rw [if_neg (by rw [hx]; simp)]
    rw [hd]
    exact ⟨Function.update_same .., Function.update_same .., rfl⟩
  · intro l r hl hr hlx hrx
    have hcond : s.left x ≠ some x := by
      rw [hl]; intro h; exact hlx (Option.some.inj h)
    have hd : s.delete x =
        { left := Function.update s.left r (some l)
          right := Function.update s.right l (some r)
          start := some r } := by
      unfold CircularDLL.delete
      rw [if_pos hcond, hl, hr]
    rw [hd]
    exact ⟨Function.update_noteq (Ne.symm hrx) _ _,
      Function.update_noteq (Ne.symm hlx) _ _, rfl⟩

/-- Witness for C8 (amended): instantiated on the singleton branch for a
one-element ring and on the general branch for the three-ring. -/
theorem CircularDLL.delete_spec_witness :
    ((threeRing.delete 1).left 1 = threeRing.left 1 ∧
     (threeRing.delete 1).right 1 = threeRing.right 1 ∧
     (threeRing.delete 1).start = some 2) :=
  (CircularDLL.delete_spec threeRing 1).2 0 2 (by decide) (by decide)
    (by decide) (by decide)

/-! ## van Emde Boas tree (`vebtree.py`, class `VEBTree`, lines 227–376)

The constructor only admits universe sizes `u = 2^(2^k)`, so the embedding
indexes trees by the tower height `k`; a `VEBTree k` node stores
`u = 2^(2^k)` implicitly.  The `cluster` attribute (a Python list of
`ru = Nat.sqrt u` child trees) is modelled as a total function from cluster
numbers; positions at or beyond `ru` are never accessed by the operations on
arguments `x < u`.  This family carries the operations whose comparisons
are value comparisons (`<`, `>`, `== None`, `is None`): the constructor,
`minimum`, `maximum`, `insert` and `successor`.  The `member` method
instead compares `x is self.min` / `x is self.max` — object identity on
ints — and is modelled at the object level (`VEBTreeO` below), where each
int allocation carries its identity. -/

/-- A vEB tree node of universe size `2^(2^k)`: the attributes `min`, `max`,
`summary` and `cluster` of class `VEBTree`.  At `k = 0` (the base case
`u == 2`) only `min`/`max` exist. -/
inductive VEBTree : Nat → Type where
  | base (min max : Option Nat) : VEBTree 0
  | node (min max : Option Nat) (summary : VEBTree k)
      (cluster : Nat → VEBTree k) : VEBTree (k + 1)

/-- Model of `VEBTree.__init__`: an empty tree (all `min`/`max` absent,
recursively allocated `summary` and `cluster`). -/
def VEBTree.create : (k : Nat) → VEBTree k
  | 0 => .base none none
  | k + 1 => .node none none (VEBTree.create k) (fun _ => VEBTree.create k)

/-- Model of `VEBTree.minimum`: return `self.min`. -/
def VEBTree.minimum : {k : Nat} → VEBTree k → Option Nat
  | _, .base mn _ => mn
  | _, .node mn _ _ _ => mn

/-- Model of `VEBTree.maximum`: return `self.max`. -/
def VEBTree.maximum : {k : Nat} → VEBTree k → Option Nat
  | _, .base _ mx => mx
  | _, .node _ mx _ _ => mx

/-- Updated `max` attribute after the trailing `if x > self.max:
self.max = x` of `insert`.  The code only reaches this line with `min`
present, in which case `max` is present as well, so the `none` branch is
unreachable; it is modelled as storing `x`. -/
def updMax (mx : Option Nat) (x : Nat) : Option Nat :=
  match mx with
  | some b => if x > b then some x else some b
  | none => some x

/-- Model of `VEBTree.insert` (lines 263–286).  When `x` is below the
current `min` the two are swapped and the old `min` is pushed down; on a
non-base node the summary is updated first when `x`'s cluster was empty,
then `x` is inserted into its cluster; finally `max` is updated. -/
def VEBTree.insert : {k : Nat} → VEBTree k → Nat → VEBTree k
  | 0, .base mn mx, x =>
    match mn with
    | none => .base (some x) (some x)
    | some m =>
      let mn2 := if x < m then x else m
      let x2 := if x < m then m else x
      .base (some mn2) (updMax mx x2)
  | k + 1, .node mn mx s cl, x =>
    match mn with
    | none => .node (some x) (some x) s cl
    | some m =>
      let mn2 := if x < m then x else m
      let x2 := if x < m then m else x
      let u := 2 ^ 2 ^ (k + 1)
      let i := high x2 u
      let s2 := if (cl i).minimum = none then s.insert i else s
      let cl2 := Function.update cl i ((cl i).insert (low x2 u))
      .node (some mn2) (updMax mx x2) s2 cl2

/-- Model of `VEBTree.successor` (lines 348–376).  The source's general
case returns `self.index(...)`, but class `VEBTree` has no attribute
`index` (the helper is the module-level function `index`), so both returning
branches raise `AttributeError`; only the base case, the `x < min` case and
the "no successor cluster" case return normally.  The recursive calls and the
reads of `maximum`/`minimum` preceding the faulting attribute lookup are
executed first, exactly as in the source. -/
def VEBTree.successor : {k : Nat} → VEBTree k → Nat → Except PyErr (Option Nat)
  | 0, .base _ mx, x =>
    .ok (if x = 0 ∧ mx = some 1 then some 1 else none)
  | k + 1, .node mn _ s cl, x =>
    let u := 2 ^ 2 ^ (k + 1)
    let summaryBranch : Except PyErr (Option Nat) :=
      (s.successor (high x u)).bind fun succCluster =>
        match succCluster with
        | none => .ok none
        | some sc =>
          let _offset := (cl sc).minimum
          .error .attributeError
    let generalCase : Except PyErr (Option Nat) :=
      match (cl (high x u)).maximum with
      | some maxInCluster =>
        if low x u < maxInCluster then
          ((cl (high x u)).successor (low x u)).bind fun _offset =>
            .error .attributeError
        else summaryBranch
      | none => summaryBranch
    match mn with
    | some m => if x < m then .ok (some m) else generalCase
    | none => generalCase

/-! ### Arithmetic facts about the tower universes -/

/-- Universe sizes are positive. -/
theorem upow_pos (k : Nat) : 0 < 2 ^ 2 ^ k := Nat.pos_pow_of_pos _ (by norm_num)

/-- At a node of universe `2^(2^(k+1))`, `ru = math.floor (math.sqrt u)` is
exactly `2^(2^k)`. -/
theorem sqrt_upow (k : Nat) : Nat.sqrt (2 ^ 2 ^ (k + 1)) = 2 ^ 2 ^ k := by
  have h : 2 ^ 2 ^ (k + 1) = (2 ^ 2 ^ k) ^ 2 := by
    rw [← Nat.pow_mul, Nat.pow_succ]
  rw [h, Nat.sqrt_eq']

/-- At the base universe `u = 2`, `ru = math.floor (math.sqrt 2)` is `1`. -/
theorem sqrt_two : Nat.sqrt 2 = 1 := by
  have h1 : 1 ≤ Nat.sqrt 2 := Nat.le_sqrt.mpr (by norm_num)
  have h2 : Nat.sqrt 2 < 2 := Nat.sqrt_lt.mpr (by norm_num)
  omega

/-- Unfolding of `high` at a tower universe (`ru = 2^(2^k)`). -/
theorem high_upow (k x : Nat) :
    high x (2 ^ 2 ^ (k + 1)) = floorTrueDiv x (2 ^ 2 ^ k) := by
  unfold high
  rw [sqrt_upow]

/-- Unfolding of `low` at a tower universe. -/
theorem low_upow (k x : Nat) : low x (2 ^ 2 ^ (k + 1)) = x % 2 ^ 2 ^ k := by
  unfold low
  rw [sqrt_upow]

/-- Unfolding of `index` at a tower universe. -/
theorem index_upow (k x y : Nat) :
    index x y (2 ^ 2 ^ (k + 1)) = x * 2 ^ 2 ^ k + y := by
  unfold index
  rw [sqrt_upow]

/-- Floor-log specification of `Nat.log2` on positive arguments. -/
theorem log2_spec (n : Nat) (h : 1 ≤ n) :
    2 ^ Nat.log2 n ≤ n ∧ n < 2 ^ (Nat.log2 n + 1) := by
  rw [Nat.log2_eq_log_two]
  exact ⟨Nat.pow_log_le_self 2 (by omega), Nat.lt_pow_succ_log_self (by norm_num) n⟩

/-- Rounding an exact quotient returns it. -/
theorem roundHE_exact (num den : Nat) (hden : 0 < den) (h : num % den = 0) :
    roundHE num den = num / den := by
  unfold roundHE
  rw [h]
  simp [hden]

/-- Division by a power of two is exact in binary64 as long as the
dividend fits in the 53-bit significand, so `math.floor` of the float
quotient agrees with exact integer division there.  This covers every
division the vEB operations perform on universes up to `2^(2^5) = 2^32`;
at `u = 2^(2^6)` dividends reach `2^64 - 1` and the rounding shows
(`index_high_low_fails` below). -/
theorem floorTrueDiv_pow2 (a p : Nat) (ha : a < 2 ^ 53) :
    floorTrueDiv a (2 ^ p) = a / 2 ^ p := by
  have hbpos : 0 < (2 : Nat) ^ p := Nat.pos_pow_of_pos _ (by norm_num)
  unfold floorTrueDiv
  by_cases h0 : a = 0
  · rw [if_pos h0, h0, Nat.zero_div]
  rw [if_neg h0]
  by_cases hab : 2 ^ p ≤ a
  · rw [if_pos hab]
    have hq1 : 1 ≤ a / 2 ^ p := (Nat.one_le_div_iff hbpos).mpr hab
    obtain ⟨hel, heu⟩ := log2_spec (a / 2 ^ p) hq1
    have hep : Nat.log2 (a / 2 ^ p) + p ≤ 52 := by
      by_contra hcon
      push_neg at hcon
      have h1 : (2 : Nat) ^ 53 ≤ 2 ^ (Nat.log2 (a / 2 ^ p) + p) :=
        Nat.pow_le_pow_right (by norm_num) (by omega)
      have h2 : (2 : Nat) ^ (Nat.log2 (a / 2 ^ p) + p)
          = 2 ^ Nat.log2 (a / 2 ^ p) * 2 ^ p := Nat.pow_add 2 _ _
      have h3 : 2 ^ Nat.log2 (a / 2 ^ p) * 2 ^ p ≤ a / 2 ^ p * 2 ^ p :=
        Nat.mul_le_mul_right _ hel
      have h4 : a / 2 ^ p * 2 ^ p ≤ a := Nat.div_mul_le_self a _
      omega
    rw [if_pos (by omega)]
    have hsplit : (2 : Nat) ^ (52 - Nat.log2 (a / 2 ^ p))
        = 2 ^ (52 - Nat.log2 (a / 2 ^ p) - p) * 2 ^ p := by
      rw [← Nat.pow_add]
      congr 1
      omega
    have hnum : a * 2 ^ (52 - Nat.log2 (a / 2 ^ p))
        = a * 2 ^ (52 - Nat.log2 (a / 2 ^ p) - p) * 2 ^ p := by
      rw [hsplit, ← Nat.mul_assoc]
    rw [hnum, roundHE_exact _ _ hbpos (Nat.mul_mod_left _ _),
      Nat.mul_div_cancel _ hbpos, hsplit,
      Nat.mul_comm a (2 ^ (52 - Nat.log2 (a / 2 ^ p) - p))]
    exact Nat.mul_div_mul_left a (2 ^ p)
      (Nat.pos_pow_of_pos _ (by norm_num))
  · rw [if_neg hab]
    push_neg at hab
    have hapos : 0 < a := by omega
    have hc1 : 1 ≤ (2 ^ p - 1) / a := (Nat.one_le_div_iff hapos).mpr (by omega)
    obtain ⟨hcl, hcu⟩ := log2_spec ((2 ^ p - 1) / a) hc1
    have hkey : 2 ^ p ≤ a * 2 ^ (Nat.log2 ((2 ^ p - 1) / a) + 1) := by
      have h1 : 2 ^ p - 1 < 2 ^ (Nat.log2 ((2 ^ p - 1) / a) + 1) * a :=
        (Nat.div_lt_iff_lt_mul hapos).mp hcu
      have h2 : 2 ^ (Nat.log2 ((2 ^ p - 1) / a) + 1) * a
          = a * 2 ^ (Nat.log2 ((2 ^ p - 1) / a) + 1) := Nat.mul_comm _ _
      omega
    have hpd : p ≤ Nat.log2 ((2 ^ p - 1) / a) + 1 + 52 := by
      by_contra hcon
      push_neg at hcon
      have h1 : a * 2 ^ (Nat.log2 ((2 ^ p - 1) / a) + 1) <
          2 ^ 53 * 2 ^ (Nat.log2 ((2 ^ p - 1) / a) + 1) :=
        Nat.mul_lt_mul_of_lt_of_le ha (Nat.le_refl _)
          (Nat.pos_pow_of_pos _ (by norm_num))
      have h2 : (2 : Nat) ^ 53 * 2 ^ (Nat.log2 ((2 ^ p - 1) / a) + 1)
          = 2 ^ (53 + (Nat.log2 ((2 ^ p - 1) / a) + 1)) :=
        (Nat.pow_add 2 _ _).symm
      have h3 : (2 : Nat) ^ (53 + (Nat.log2 ((2 ^ p - 1) / a) + 1)) ≤ 2 ^ p :=
        Nat.pow_le_pow_right (by norm_num) (by omega)
      omega
    have hsplit : (2 : Nat) ^ (Nat.log2 ((2 ^ p - 1) / a) + 1 + 52)
        = 2 ^ (Nat.log2 ((2 ^ p - 1) / a) + 1 + 52 - p) * 2 ^ p := by
      rw [← Nat.pow_add]
      congr 1
      omega
    have hnum : a * 2 ^ (Nat.log2 ((2 ^ p - 1) / a) + 1 + 52)
        = a * 2 ^ (Nat.log2 ((2 ^ p - 1) / a) + 1 + 52 - p) * 2 ^ p := by
      rw [hsplit, ← Nat.mul_assoc]
    rw [hnum, roundHE_exact _ _ hbpos (Nat.mul_mod_left _ _),
      Nat.mul_div_cancel _ hbpos, Nat.div_eq_of_lt hab]
    apply Nat.div_eq_of_lt
    rw [hsplit, Nat.mul_comm (2 ^ (Nat.log2 ((2 ^ p - 1) / a) + 1 + 52 - p))
      (2 ^ p)]
    exact Nat.mul_lt_mul_of_lt_of_le hab (Nat.le_refl _)
      (Nat.pos_pow_of_pos _ (by norm_num))

/-! ### Theorems for C9 -/

/-- Counterexample for C9: at `u = 2^(2^6) = 2^64` and `x = 2^64 - 1` the
exact quotient `x / ru = 2^32 - 2^-32` needs 64 significand bits, so the
binary64 division rounds it up to `2^32.0` and `high` returns `2^32`
(instead of the exact `2^32 - 1`); the recombination identity stated in the
source's comment on line 37 then fails:
`index (high x u) (low x u) u = 2^64 + 2^32 - 1 ≠ x`. -/
theorem index_high_low_fails :
    high (2 ^ 64 - 1) (2 ^ 2 ^ 6) = 2 ^ 32 ∧
    index (high (2 ^ 64 - 1) (2 ^ 2 ^ 6)) (low (2 ^ 64 - 1) (2 ^ 2 ^ 6))
      (2 ^ 2 ^ 6) ≠ 2 ^ 64 - 1 := by
  have hlog : Nat.log2 ((2 ^ 64 - 1) / 2 ^ 32) = 31 := by
    have hdiv : (2 ^ 64 - 1) / 2 ^ 32 = 2 ^ 32 - 1 := by norm_num
    rw [hdiv, Nat.log2_eq_log_two]
    exact Nat.log_eq_of_pow_le_of_lt_pow (by norm_num) (by norm_num)
  have hround : roundHE ((2 ^ 64 - 1) * 2 ^ (52 - 31)) (2 ^ 32) = 2 ^ 53 := by
    unfold roundHE
    rw [if_neg (by norm_num), if_pos (by norm_num)]
    norm_num
  have hftd : floorTrueDiv (2 ^ 64 - 1) (2 ^ 32) = 2 ^ 32 := by
    unfold floorTrueDiv
    rw [if_neg (by norm_num), if_pos (by norm_num), hlog,
      if_pos (by norm_num), hround]
    norm_num
  have h25 : (2 : Nat) ^ 2 ^ 5 = 2 ^ 32 := by norm_num
  have hh : high (2 ^ 64 - 1) (2 ^ 2 ^ 6) = 2 ^ 32 := by
    rw [high_upow 5, h25, hftd]
  refine ⟨hh, ?_⟩
  rw [hh, index_upow 5, low_upow 5]
  norm_num

/-- C9 (amended): for every universe size of the form `2^(2^k)` with
`k ≤ 5` and every `x` in `[0, u)`, the splitting helpers satisfy
`index (high x u) (low x u) u = x` — there every `x < u ≤ 2^32 < 2^53`
keeps the float division exact.  From `k = 6` on the identity fails
(`index_high_low_fails`). -/
theorem index_high_low (k x : Nat) (hx : x < 2 ^ 2 ^ k) (hk : k ≤ 5) :
    index (high x (2 ^ 2 ^ k)) (low x (2 ^ 2 ^ k)) (2 ^ 2 ^ k) = x := by
  have hx53 : x < 2 ^ 53 := by
    have h1 : (2 : Nat) ^ 2 ^ k ≤ 2 ^ 2 ^ 5 :=
      Nat.pow_le_pow_right (by norm_num) (Nat.pow_le_pow_right (by norm_num) hk)
    have h2 : (2 : Nat) ^ 2 ^ 5 ≤ 2 ^ 53 :=
      Nat.pow_le_pow_right (by norm_num) (by norm_num)
    omega
  cases k with
  | zero =>
    have hs : Nat.sqrt (2 ^ 2 ^ 0) = 2 ^ 0 := by
      norm_num [sqrt_two]
    unfold index high low
    rw [hs, floorTrueDiv_pow2 x 0 hx53]
    norm_num [Nat.mod_one]
  | succ m =>
    have hs : Nat.sqrt (2 ^ 2 ^ (m + 1)) = 2 ^ 2 ^ m := sqrt_upow m
    unfold index high low
    rw [hs, floorTrueDiv_pow2 x (2 ^ m) hx53, Nat.mul_comm]
    exact Nat.div_add_mod x (2 ^ 2 ^ m)

/-- Witness for C9 (amended) at `u = 16`, `x = 13`. -/
theorem index_high_low_witness :
    index (high 13 (2 ^ 2 ^ 2)) (low 13 (2 ^ 2 ^ 2)) (2 ^ 2 ^ 2) = 13 :=
  index_high_low 2 13 (by norm_num) (by norm_num)

/-- C5 (evaluation at the failing input): in the `u = 4` tree holding
`{0, 2}` (built by `insert 0; insert 2` on a fresh tree), `successor 0`
raises `AttributeError` — the source returns through `self.index(...)`,
an attribute class `VEBTree` does not have — where the claim requires it to
return `2`, the least element greater than `0`. -/
theorem VEBTree.successor_attribute_error :
    (((VEBTree.create 1).insert 0).insert 2).successor 0
      = Except.error PyErr.attributeError := by
  have hsq : Nat.sqrt 4 = 2 := by
    simpa using sqrt_upow 0
  have hh2 : high 2 4 = 1 := by
    unfold high
    rw [hsq]
    have h := floorTrueDiv_pow2 2 1 (by norm_num)
    norm_num at h
    exact h
  have hl2 : low 2 4 = 0 := by
    unfold low
    rw [hsq]
  have hh0 : high 0 4 = 0 := by
    unfold high
    rw [hsq]
    have h := floorTrueDiv_pow2 0 1 (by norm_num)
    norm_num at h
    exact h
  have e1 : ((VEBTree.create 1).insert 0)
      = VEBTree.node (some 0) (some 0) (VEBTree.create 0)
          (fun _ => VEBTree.create 0) := rfl
  have e2 : (((VEBTree.create 1).insert 0).insert 2)
      = VEBTree.node (some 0) (some 2) (VEBTree.base (some 1) (some 1))
          (Function.update (fun _ => VEBTree.create 0) 1
            (VEBTree.base (some 0) (some 0))) := by
    rw [e1]
    simp only [VEBTree.insert, VEBTree.minimum, updMax, VEBTree.create]
    norm_num [hh2, hl2]
  rw [e2]
  simp only [VEBTree.successor, VEBTree.maximum, VEBTree.minimum]
  norm_num [hh0, Function.update, VEBTree.create, Except.bind]

/-! ## Object-level vEB model: the `is` tests of `member` (line 296)

The source's `member` tests `x is self.min` and `x is self.max` — object
identity.  CPython interns exactly the ints in `[-5, 256]`: two int
objects with equal value in that range are always the same object, while
equal ints above `256` produced by separate allocations are distinct
objects.  An int object is therefore modelled as its value paired with an
object id: interned values carry the canonical id equal to the value, and
every other allocation draws a fresh id from a counter kept above `256`,
so a fresh object is never identical to an interned one or to a
previously allocated one.  The operations thread the counter, allocating
at each textual evaluation of `high(x, self.u)` / `low(x, self.u)` in
source order, exactly as the interpreter does. -/

/-- A Python int object: its value and its object identity. -/
structure PyInt where
  val : Nat
  oid : Nat

/-- Model of Python's `is` on two int objects: the same object. -/
def pyIs (a b : PyInt) : Bool := a.oid == b.oid

/-- Model of `x is self.min` where the attribute may be `None`: an int
object is never the `None` object. -/
def pyIsOpt (x : PyInt) : Option PyInt → Bool
  | none => false
  | some m => pyIs x m

/-- Allocation of an int object with value `v`: the interned (canonical)
object for `v ≤ 256`, otherwise a fresh object numbered by the counter,
which is then advanced. -/
def mkPyInt (v ctr : Nat) : PyInt × Nat :=
  if v ≤ 256 then (⟨v, v⟩, ctr) else (⟨v, ctr⟩, ctr + 1)

/-- Object-level vEB tree node of universe size `2^(2^k)`: as `VEBTree`,
with `min`/`max` holding int objects. -/
inductive VEBTreeO : Nat → Type where
  | base (min max : Option PyInt) : VEBTreeO 0
  | node (min max : Option PyInt) (summary : VEBTreeO k)
      (cluster : Nat → VEBTreeO k) : VEBTreeO (k + 1)

/-- Model of `VEBTree.__init__` at the object level. -/
def VEBTreeO.create : (k : Nat) → VEBTreeO k
  | 0 => .base none none
  | k + 1 => .node none none (VEBTreeO.create k) (fun _ => VEBTreeO.create k)

/-- Model of `VEBTree.minimum` at the object level. -/
def VEBTreeO.minimum : {k : Nat} → VEBTreeO k → Option PyInt
  | _, .base mn _ => mn
  | _, .node mn _ _ _ => mn

/-- Updated `max` attribute after the trailing `if x > self.max:
self.max = x` of `insert` (value comparison), object level; as with
`updMax`, the `none` branch is unreachable and modelled as storing `x`. -/
def updMaxO (mx : Option PyInt) (x : PyInt) : Option PyInt :=
  match mx with
  | some b => if x.val > b.val then some x else some b
  | none => some x

/-- Model of `VEBTree.insert` (lines 263–286) at the object level,
threading the allocation counter: the object `x` itself is stored into
`min`/`max` (and swapped with the stored `min` object when smaller), and
each of the source's evaluations of `high(x, self.u)` — the emptiness
test's, the summary insert's, the cluster index's — and of
`low(x, self.u)` allocates, in source order. -/
def VEBTreeO.insert : {k : Nat} → VEBTreeO k → PyInt → Nat → VEBTreeO k × Nat
  | 0, .base mn mx, x, ctr =>
    match mn with
    | none => (.base (some x) (some x), ctr)
    | some m =>
      let mn2 := if x.val < m.val then x else m
      let x2 := if x.val < m.val then m else x
      (.base (some mn2) (updMaxO mx x2), ctr)
  | k + 1, .node mn mx s cl, x, ctr =>
    match mn with
    | none => (.node (some x) (some x) s cl, ctr)
    | some m =>
      let mn2 := if x.val < m.val then x else m
      let x2 := if x.val < m.val then m else x
      let u := 2 ^ 2 ^ (k + 1)
      let h1 := mkPyInt (high x2.val u) ctr
      let sr :=
        if (cl h1.1.val).minimum.isNone then
          let h2 := mkPyInt (high x2.val u) h1.2
          s.insert h2.1 h2.2
        else (s, h1.2)
      let h3 := mkPyInt (high x2.val u) sr.2
      let lo := mkPyInt (low x2.val u) h3.2
      let cr := (cl h3.1.val).insert lo.1 lo.2
      (.node (some mn2) (updMaxO mx x2) sr.1 (Function.update cl h3.1.val cr.1),
        cr.2)

/-- Model of `VEBTree.member` (lines 293–301) at the object level: the
identity tests `x is self.min` / `x is self.max`, then the base case, then
the recursion into the cluster selected by a freshly allocated
`high(x, self.u)` with a freshly allocated `low(x, self.u)`. -/
def VEBTreeO.member : {k : Nat} → VEBTreeO k → PyInt → Nat → Bool × Nat
  | 0, .base mn mx, x, ctr => (pyIsOpt x mn || pyIsOpt x mx, ctr)
  | k + 1, .node mn mx _ cl, x, ctr =>
    if pyIsOpt x mn || pyIsOpt x mx then (true, ctr)
    else
      let u := 2 ^ 2 ^ (k + 1)
      let hi := mkPyInt (high x.val u) ctr
      let lo := mkPyInt (low x.val u) hi.2
      (cl hi.1.val).member lo.1 lo.2

/-- Membership in a freshly created (empty) object-level tree is `false`
for every query object: the identity tests against the absent `min`/`max`
fail at every level and the recursion bottoms out at the base case. -/
theorem VEBTreeO.member_create (k : Nat) (x : PyInt) (ctr : Nat) :
    ((VEBTreeO.create k).member x ctr).1 = false := by
  induction k generalizing x ctr with
  | zero => rfl
  | succ k ih => simp [VEBTreeO.create, VEBTreeO.member, pyIsOpt, ih]

/-- C2 (evaluation at the failing input): at `u = 2^(2^4) = 65536`,
inserting `300` into an empty tree hoists the int object (value `300`,
object id `257` — allocated above the interned range) into `min` without
storing it in any cluster; querying `member` with a separately allocated
object of the same value (id `258`) fails both identity tests
`x is self.min` / `x is self.max`, recurses through empty clusters and
returns `False` — where the claim requires `True` for every inserted
element.  The first conjunct exhibits that the value `300` is stored in
the tree. -/
theorem VEBTreeO.member_misses_inserted :
    ((VEBTreeO.create 4).insert ⟨300, 257⟩ 258).1.minimum.map PyInt.val
      = some 300 ∧
    (((VEBTreeO.create 4).insert ⟨300, 257⟩ 258).1.member ⟨300, 258⟩ 259).1
      = false := by
  have e1 : ((VEBTreeO.create 4).insert ⟨300, 257⟩ 258).1
      = VEBTreeO.node (some ⟨300, 257⟩) (some ⟨300, 257⟩)
          (VEBTreeO.create 3) (fun _ => VEBTreeO.create 3) := rfl
  rw [e1]
  exact ⟨rfl, by simp [VEBTreeO.member, pyIsOpt, pyIs, VEBTreeO.member_create]⟩

/-! ## Fibonacci heap (`fibHeap.py`, lines 143–375)

A heap item (`FibHeapHItem`) owns its `children` ring, so items form rose
trees; `parent` is the (implicit) tree structure — an item is a root iff it
lies in the root list, and promoting or cutting a subtree models the
`parent = None` assignments.  Rings are observed as lists (see the module
comment): `CircularDLL.insert` appends, `merge` concatenates, and
`delete` of the member at position `i` yields `drop (i+1) ++ take i`
(the anchor advances to the deleted member's right neighbour).  The heap's
`min` attribute always references a root in the states the claims run
through, and is modelled as an index into the root list. -/

/-- A `FibHeapHItem`: `key`, `marked`, `degree`, and the `children` ring.
The opaque payload plays no role in any claim and is omitted. -/
inductive HTree : Type where
  | node (key : Int) (marked : Bool) (degree : Nat) (children : List HTree) : HTree
deriving Repr

/-- The `key` attribute. -/
def HTree.key : HTree → Int
  | .node k _ _ _ => k

/-- The `marked` attribute. -/
def HTree.marked : HTree → Bool
  | .node _ m _ _ => m

/-- The `degree` attribute. -/
def HTree.degree : HTree → Nat
  | .node _ _ d _ => d

/-- The `children` ring, as a list (`None` and an empty ring are both the
empty list: the source treats them alike, since a `CircularDLL` object is
always truthy and iterating an empty one yields nothing). -/
def HTree.children : HTree → List HTree
  | .node _ _ _ cs => cs

/-- Assignment to the `marked` attribute. -/
def HTree.setMarked (t : HTree) (b : Bool) : HTree :=
  match t with
  | .node k _ d cs => .node k b d cs

/-- Assignment to the `key` attribute. -/
def HTree.setKey (t : HTree) (k : Int) : HTree :=
  match t with
  | .node _ m d cs => .node k m d cs

/-- Model of `FibHeapHItem.__init__`: a fresh item with no parent, no
children, unmarked, degree `0`. -/
def FibHeapHItem (key : Int) : HTree := .node key false 0 []

/-- Model of `FibHeapHItem.link` (lines 155–167): make `other` a child of
`self` (inserted before the children ring's anchor, i.e. appended in
`items()` order), unmark it and increment `self.degree`. -/
def HTree.link (self other : HTree) : HTree :=
  match self with
  | .node k m d cs => .node k m (d + 1) (cs ++ [other.setMarked false])

/-- Model of `CircularDLL.delete` at the `items()` level: removing the
member at position `i` of a ring with at least two members rotates the
observation to start at its right neighbour; removing the sole member
empties the list (the source's `item != item.left` test). -/
def cdllDeleteAt (l : List HTree) (i : Nat) : List HTree :=
  if l.length ≤ 1 then [] else l.drop (i + 1) ++ l.take i

/-- Model of `p.children.delete(item)` followed by `p.degree -= 1` in
`FibHeap.cut`, for the child at position `j`. -/
def HTree.removeChild (t : HTree) (j : Nat) : HTree :=
  match t with
  | .node k m d cs => .node k m (d - 1) (cdllDeleteAt cs j)

/-- The `FibHeap` object: the `roots` ring (observed as a list), the `min`
reference (position of the referenced root in `roots`), and the counter
`n`. -/
structure FibHeap where
  roots : List HTree
  min : Option Nat
  n : Int
deriving Repr

/-- Model of `FibHeap.__init__` with a starting item: `roots =
CircularDLL([item])`, `n = 1`, `min = item`. -/
def FibHeap.init1 (item : HTree) : FibHeap :=
  { roots := [item], min := some 0, n := 1 }

/-- Model of `FibHeap.__init__` with no starting item: the constructor
executes `self.n - 0` — reading the attribute `n` before it was ever
assigned — and raises `AttributeError`, so no empty heap is ever
constructed. -/
def FibHeap.init0 : Except PyErr FibHeap := .error .attributeError

/-- Model of `FibHeap.insert` (lines 226–235): the item joins the root ring
(before the anchor, hence last in `items()` order), `n` grows, and `min` is
redirected when the new key is strictly smaller (or when the heap had no
`min`).  The branch where `min` indexes no root cannot arise in the states
the claims run through and leaves `min` unchanged. -/
def FibHeap.insert (h : FibHeap) (item : HTree) : FibHeap :=
  { roots := h.roots ++ [item]
    min :=
      match h.min with
      | none => some h.roots.length
      | some i =>
        match h.roots[i]? with
        | some mt => if mt.key > item.key then some h.roots.length else some i
        | none => some i
    n := h.n + 1 }

/-- Model of `FibHeap.first`: return `self.min` (the referenced item). -/
def FibHeap.first (h : FibHeap) : Option HTree :=
  h.min.bind fun i => h.roots[i]?

/-- Model of `FibHeap.merge` (lines 237–243): splice the root rings, add the
counters, then compare `self.min.key > another.min.key` — an
`AttributeError` when either `min` is `None` (`None` has no attribute
`key`). -/
def FibHeap.merge (h another : FibHeap) : Except PyErr FibHeap :=
  match h.min with
  | none => .error .attributeError
  | some i =>
    match another.min with
    | none => .error .attributeError
    | some j =>
      match h.roots[i]?, another.roots[j]? with
      | some a, some b =>
        .ok { roots := h.roots ++ another.roots
              min := if a.key > b.key then some (h.roots.length + j) else some i
              n := h.n + another.n }
      | _, _ => .error .brokenInvariant

/-- The scratch dictionary of `FibHeap.consolidate` (`new_roots`): an
insertion-ordered association list from degree to root, like a Python
`dict`.  Lookup of a degree. -/
def dictFind (d : Nat) : List (Nat × HTree) → Option HTree
  | [] => none
  | (d2, t) :: rest => if d2 = d then some t else dictFind d rest

/-- Removal of a degree from the scratch dictionary (`new_roots.pop`). -/
def dictErase (d : Nat) : List (Nat × HTree) → List (Nat × HTree)
  | [] => []
  | (d2, t) :: rest => if d2 = d then rest else (d2, t) :: dictErase d rest

/-- Erasing a degree that is present shrinks the dictionary. -/
theorem dictErase_length_lt (d : Nat) (l : List (Nat × HTree)) (t : HTree)
    (h : dictFind d l = some t) : (dictErase d l).length < l.length := by
  induction l with
  | nil => simp [dictFind] at h
  | cons p rest ih =>
    by_cases hd : p.1 = d
    · simp only [dictErase, hd, if_pos, List.length_cons]
      omega
    · simp only [dictFind, hd, if_neg, not_false_iff] at h
      simp only [dictErase, hd, if_neg, not_false_iff, List.length_cons]
      have := ih h
      omega

/-- The inner `while` loop of `FibHeap.consolidate` (lines 286–297): while a
processed root of equal degree exists, pop it, let the smaller key win
(`item` keeps winning ties), link the loser below the winner, and retry with
the winner's increased degree; finally file the survivor under its degree
(at the end of the insertion order, as in a Python `dict`). -/
def consolidateLoop (item : HTree) (dict : List (Nat × HTree)) :
    List (Nat × HTree) :=
  match hfind : dictFind item.degree dict with
  | none => dict ++ [(item.degree, item)]
  | some other =>
    if other.key < item.key then
      consolidateLoop (other.link item) (dictErase item.degree dict)
    else
      consolidateLoop (item.link other) (dictErase item.degree dict)
termination_by dict.length
decreasing_by
  · exact dictErase_length_lt _ _ _ hfind
  · exact dictErase_length_lt _ _ _ hfind

/-- The outer loop of the bunching pass: process a snapshot of the root ring
left to right. -/
def consolidatePass : List HTree → List (Nat × HTree) → List (Nat × HTree)
  | [], dict => dict
  | item :: rest, dict => consolidatePass rest (consolidateLoop item dict)

/-- Model of `FibHeap.consolidate` (lines 274–309): bunch the snapshot of
the roots, then rebuild: the first surviving root becomes
`CircularDLL([item])` with `min` pointing at it, the others are re-`insert`ed
(each `insert` is compensated with `n -= 1`).  With an empty scratch the
rebuild loop never runs and `roots` is left as it was with `min = None` —
that needs an empty root ring and never happens after an extraction that
left the heap non-empty. -/
def FibHeap.consolidate (h : FibHeap) : FibHeap :=
  match (consolidatePass h.roots []).map Prod.snd with
  | [] => { roots := h.roots, min := none, n := h.n }
  | v :: vs =>
    vs.foldl (fun acc item =>
        let acc2 := acc.insert item
        { acc2 with n := acc2.n - 1 })
      { roots := [v], min := some 0, n := h.n }

/-- Model of `FibHeap.extract_min` (lines 251–272): with no `min` return
`None` and change nothing.  Otherwise clear the children's parent pointers
(implicit here), splice the children ring into the roots, delete the minimum
from the root ring, decrement `n`, and — when roots remain — consolidate.
`consolidate` never reads the stale `min`, which is passed here as `none`. -/
def FibHeap.extract_min (h : FibHeap) : Option HTree × FibHeap :=
  match h.min with
  | none => (none, h)
  | some i =>
    match h.roots[i]? with
    | none => (none, h)
    | some cm =>
      let roots1 := h.roots ++ cm.children
      let roots2 := cdllDeleteAt roots1 i
      if roots2.isEmpty then
        (some cm, { roots := roots2, min := none, n := h.n - 1 })
      else
        (some cm, FibHeap.consolidate { roots := roots2, min := none, n := h.n - 1 })

/-- Resolve a handle: the item at a path (root position, then positions in
the successive children rings).  The empty path resolves to nothing. -/
def nodeAt : List HTree → List Nat → Option HTree
  | _, [] => none
  | l, i :: rest =>
    match l[i]? with
    | none => none
    | some t =>
      match rest with
      | [] => some t
      | _ :: _ => nodeAt t.children rest

/-- Apply a function to the element at one position of a list (no effect out
of range). -/
def modifyIdx : List HTree → Nat → (HTree → HTree) → List HTree
  | [], _, _ => []
  | t :: rest, 0, f => f t :: rest
  | t :: rest, i + 1, f => t :: modifyIdx rest i f

/-- Replacement of the `children` attribute. -/
def HTree.setChildren (t : HTree) (cs : List HTree) : HTree :=
  match t with
  | .node k m d _ => .node k m d cs

/-- Apply a function to the item at a path (no effect on an empty or
dangling path). -/
def modifyAt : List HTree → List Nat → (HTree → HTree) → List HTree
  | l, [], _ => l
  | l, [i], f => modifyIdx l i f
  | l, i :: rest, f =>
    modifyIdx l i (fun t => t.setChildren (modifyAt t.children rest f))

/-- Model of `FibHeap.cut` (lines 356–375) on the item at `path`.  With no
parent (`path` names a root, or is degenerate) nothing happens.  Otherwise
the item is unlinked from its parent's children ring (which rotates to the
removed item's right neighbour), the parent's degree drops, the item joins
the root ring unmarked, and then — if the parent is itself no root — a
marked parent is cut recursively while an unmarked one is marked. -/
def FibHeap.cutPath (h : FibHeap) (path : List Nat) : FibHeap :=
  if hlen : path.length < 2 then h
  else
    match nodeAt h.roots path, nodeAt h.roots path.dropLast with
    | some item, some pnode =>
      let roots1 := modifyAt h.roots path.dropLast
        (fun t => t.removeChild (path.getLastD 0))
      let roots2 := roots1 ++ [item.setMarked false]
      let h2 : FibHeap := { h with roots := roots2 }
      if 2 ≤ path.dropLast.length then
        if pnode.marked then
          FibHeap.cutPath h2 path.dropLast
        else
          { h2 with
            roots := modifyAt roots2 path.dropLast (fun t => t.setMarked true) }
      else h2
    | _, _ => h
termination_by path.length
decreasing_by
  simp only [List.length_dropLast]
  omega

/-- Model of `FibHeap.decrease_key` (lines 324–332) on the item at `path`.
The `assert` rejects a larger key; the key is assigned; the item is cut when
it has a parent with a larger key; finally `self.min` is redirected when the
new key beats `self.min.key` (an `AttributeError` when `min` is `None`).  A
cut item sits at position `h1.roots.length` (the first root appended by
`cut`).  The source can aim `min` at a non-root here only when the heap
order is already broken; the index representation cannot express that and
the model faults instead (`brokenInvariant`), a branch proved unreachable
in well-ordered heaps below. -/
def FibHeap.decrease_key (h : FibHeap) (path : List Nat) (newKey : Int) :
    Except PyErr FibHeap :=
  match nodeAt h.roots path with
  | none => .error .brokenInvariant
  | some item =>
    if newKey > item.key then .error .assertionError
    else
      let h1 : FibHeap := { h with roots := modifyAt h.roots path (fun t => t.setKey newKey) }
      let doCut : Bool :=
        decide (2 ≤ path.length) &&
          (match nodeAt h1.roots path.dropLast with
           | some p => decide (newKey < p.key)
           | none => false)
      let h2 := if doCut then h1.cutPath path else h1
      match h2.min with
      | none => .error .attributeError
      | some mi =>
        match h2.roots[mi]? with
        | none => .error .brokenInvariant
        | some mt =>
          if newKey < mt.key then
            if doCut then .ok { h2 with min := some h1.roots.length }
            else
              match path with
              | [i] => .ok { h2 with min := some i }
              | _ => .error .brokenInvariant
          else .ok h2

/-! ### C7: extracting from an empty heap -/

/-- C7: `extract_min` on an empty Fibonacci heap (no `min`) returns `None`
— an explicit absence, not a fault — and leaves the heap untouched (roots,
`min` and `n` unchanged). -/
theorem FibHeap.extract_min_empty (h : FibHeap) (hm : h.min = none) :
    h.extract_min = (none, h) := by
  unfold FibHeap.extract_min
  rw [hm]

/-- Witness for C7 on the empty heap state (as reached by draining a
one-item heap). -/
theorem FibHeap.extract_min_empty_witness :
    FibHeap.extract_min { roots := [], min := none, n := 0 } =
      (none, { roots := [], min := none, n := 0 }) :=
  FibHeap.extract_min_empty { roots := [], min := none, n := 0 } rfl

/-! ### C6: distinct root degrees after `extract_min` -/

/-- Invariant of the consolidation scratch: its degrees are pairwise
distinct and each filed root's `degree` attribute equals its key. -/
def DictGood (dict : List (Nat × HTree)) : Prop :=
  (dict.map Prod.fst).Nodup ∧ ∀ p ∈ dict, p.2.degree = p.1

/-- A degree is found in the scratch exactly when some entry carries it. -/
theorem dictFind_eq_none_iff (d : Nat) (l : List (Nat × HTree)) :
    dictFind d l = none ↔ d ∉ l.map Prod.fst := by
  induction l with
  | nil => simp [dictFind]
  | cons p rest ih =>
    by_cases hd : p.1 = d
    · simp [dictFind, hd]
    · simp only [dictFind, hd, if_neg, not_false_iff, List.map_cons,
        List.mem_cons, ih]
      constructor
      · intro h hmem
        rcases hmem with h2 | h2
        · exact hd h2.symm
        · exact h h2
      · intro h h2
        exact h (Or.inr h2)

/-- Erasure yields a sublist of the scratch. -/
theorem dictErase_sublist (d : Nat) (l : List (Nat × HTree)) :
    (dictErase d l).Sublist l := by
  induction l with
  | nil => simp [dictErase]
  | cons p rest ih =>
    by_cases hd : p.1 = d
    · simp only [dictErase, hd, if_pos]
      exact (List.sublist_cons_self p rest)
    · simp only [dictErase, hd, if_neg, not_false_iff]
      exact ih.cons₂ p

/-- Erasure preserves the scratch invariant. -/
theorem DictGood.erase (d : Nat) (l : List (Nat × HTree)) (hg : DictGood l) :
    DictGood (dictErase d l) := by
  refine ⟨hg.1.sublist ((dictErase_sublist d l).map Prod.fst), ?_⟩
  intro p hp
  exact hg.2 p ((dictErase_sublist d l).mem hp)

/-- The inner consolidation loop preserves the scratch invariant: the
survivor is filed under its own (fresh) degree. -/
theorem consolidateLoop_good (item : HTree) (dict : List (Nat × HTree))
    (hg : DictGood dict) : DictGood (consolidateLoop item dict) := by
  generalize hn : dict.length = n
  induction n using Nat.strong_induction_on generalizing item dict with
  | _ n ih =>
    rw [consolidateLoop]
    split
    · rename_i hfind
      constructor
      · rw [List.map_append]
        refine List.Nodup.append hg.1 (List.nodup_singleton _) ?_
        intro d hd hd2
        simp only [List.map_cons, List.map_nil, List.mem_singleton] at hd2
        subst hd2
        exact (dictFind_eq_none_iff _ _).mp hfind hd
      · intro p hp
        rcases List.mem_append.mp hp with h | h
        · exact hg.2 p h
        · simp only [List.mem_singleton] at h
          subst h
          rfl
    · rename_i other hfind
      have herase := dictErase_length_lt item.degree dict other hfind
      split
      · exact ih _ (by omega) _ _ (DictGood.erase _ _ hg) rfl
      · exact ih _ (by omega) _ _ (DictGood.erase _ _ hg) rfl

/-- The bunching pass preserves the scratch invariant. -/
theorem consolidatePass_good (l : List HTree) (dict : List (Nat × HTree))
    (hg : DictGood dict) : DictGood (consolidatePass l dict) := by
  induction l generalizing dict with
  | nil => exact hg
  | cons t rest ih => exact ih _ (consolidateLoop_good t dict hg)

/-- The inner loop never returns an empty scratch. -/
theorem consolidateLoop_ne_nil (item : HTree) (dict : List (Nat × HTree)) :
    consolidateLoop item dict ≠ [] := by
  generalize hn : dict.length = n
  induction n using Nat.strong_induction_on generalizing item dict with
  | _ n ih =>
    rw [consolidateLoop]
    split
    · simp
    · rename_i other hfind
      have herase := dictErase_length_lt item.degree dict other hfind
      split
      · exact ih _ (by omega) _ _ rfl
      · exact ih _ (by omega) _ _ rfl

/-- The bunching pass of a non-empty snapshot yields a non-empty scratch. -/
theorem consolidatePass_ne_nil (l : List HTree) (dict : List (Nat × HTree))
    (h : l ≠ [] ∨ dict ≠ []) : consolidatePass l dict ≠ [] := by
  induction l generalizing dict with
  | nil =>
    rcases h with h | h
    · exact absurd rfl h
    · exact h
  | cons t rest ih =>
    exact ih _ (Or.inr (consolidateLoop_ne_nil t dict))

/-- The rebuild loop of `consolidate` appends the filed roots in order. -/
theorem rebuild_roots (vs : List HTree) (acc : FibHeap) :
    (vs.foldl (fun acc item =>
        let acc2 := acc.insert item
        { acc2 with n := acc2.n - 1 }) acc).roots = acc.roots ++ vs := by
  induction vs generalizing acc with
  | nil => simp
  | cons v rest ih =>
    rw [List.foldl_cons, ih]
    simp [FibHeap.insert]

/-- After `consolidate`, the root list is exactly the scratch's roots in
insertion order. -/
theorem consolidate_roots (h : FibHeap) :
    (FibHeap.consolidate h).roots = (consolidatePass h.roots []).map Prod.snd ∨
    ((consolidatePass h.roots []).map Prod.snd = [] ∧
      (FibHeap.consolidate h).roots = h.roots) := by
  unfold FibHeap.consolidate
  split
  · rename_i hvals
    exact Or.inr ⟨hvals, rfl⟩
  · rename_i v vs hvals
    left
    rw [rebuild_roots, hvals]
    rfl

/-- C6: after an `extract_min` (from a heap whose `min` references a root)
that leaves the heap non-empty, no two items in the root list carry the
same `degree`. -/
theorem FibHeap.extract_min_degrees_nodup (h : FibHeap) (i : Nat) (cm : HTree)
    (hmin : h.min = some i) (hroot : h.roots[i]? = some cm)
    (hne : (h.extract_min).2.roots ≠ []) :
    ((h.extract_min).2.roots.map HTree.degree).Nodup := by
  simp only [FibHeap.extract_min, hmin, hroot] at hne ⊢
  by_cases hempty : (cdllDeleteAt (h.roots ++ cm.children) i).isEmpty
  · rw [if_pos hempty] at hne ⊢
    simp only [List.isEmpty_iff] at hempty
    exact absurd hempty hne
  · rw [if_neg hempty] at hne ⊢
    set h2 : FibHeap :=
      { roots := cdllDeleteAt (h.roots ++ cm.children) i, min := none,
        n := h.n - 1 } with hh2
    have hg := consolidatePass_good h2.roots [] ⟨List.nodup_nil, by simp⟩
    rcases consolidate_roots h2 with hr | ⟨hvals, hr⟩
    · rw [hr]
      have hmapeq : ((consolidatePass h2.roots []).map Prod.snd).map HTree.degree
          = (consolidatePass h2.roots []).map Prod.fst := by
        rw [List.map_map]
        refine List.map_congr_left ?_
        intro p hp
        exact hg.2 p hp
      rw [hmapeq]
      exact hg.1
    · exfalso
      refine consolidatePass_ne_nil h2.roots [] (Or.inl ?_) (List.map_eq_nil.mp hvals)
      simp only [List.isEmpty_iff] at hempty
      exact hempty

/-- Witness for C6: extracting from the heap built by seeding with key `0`
and inserting keys `1` and `2`. -/
theorem FibHeap.extract_min_degrees_nodup_witness :
    (((((FibHeap.init1 (FibHeapHItem 0)).insert (FibHeapHItem 1)).insert
        (FibHeapHItem 2)).extract_min).2.roots.map HTree.degree).Nodup := by
  refine FibHeap.extract_min_degrees_nodup _ 0 (FibHeapHItem 0) rfl rfl ?_
  have hcomp : (((((FibHeap.init1 (FibHeapHItem 0)).insert
        (FibHeapHItem 1)).insert (FibHeapHItem 2)).extract_min).2).roots
      = [HTree.node 1 false 1 [HTree.node 2 false 0 []]] := by
    simp [FibHeap.extract_min, FibHeap.init1, FibHeap.insert, FibHeapHItem,
      cdllDeleteAt, FibHeap.consolidate, consolidatePass, consolidateLoop,
      dictFind, dictErase, HTree.link, HTree.key, HTree.degree,
      HTree.children, HTree.setMarked]
  rw [hcomp]
  simp

/-! ### C3: marks on the root list -/

/-- No item in the root list is marked. -/
def RootsUnmarked (h : FibHeap) : Prop := ∀ t ∈ h.roots, t.marked = false

/-- Modifying one position with a mark-preserving function preserves the
marks of the list. -/
theorem marked_modifyIdx (l : List HTree) (i : Nat) (f : HTree → HTree)
    (hf : ∀ t, (f t).marked = t.marked) :
    (modifyIdx l i f).map HTree.marked = l.map HTree.marked := by
  induction l generalizing i with
  | nil => rfl
  | cons t rest ih =>
    cases i with
    | zero => simp [modifyIdx, hf]
    | succ j => simp [modifyIdx, ih]

/-- Modifying along a path of length two or more — or with a
mark-preserving function — preserves the marks of the top-level list. -/
theorem marked_modifyAt (l : List HTree) (path : List Nat) (f : HTree → HTree)
    (hf : 2 ≤ path.length ∨ ∀ t, (f t).marked = t.marked) :
    (modifyAt l path f).map HTree.marked = l.map HTree.marked := by
  match path with
  | [] => rfl
  | [i] =>
    rcases hf with hlen | hpres
    · simp at hlen
    · exact marked_modifyIdx l i f hpres
  | i :: j :: rest =>
    apply marked_modifyIdx
    intro t
    cases t
    rfl

/-- Transport un-markedness along an equality of mark lists. -/
theorem unmarked_congr {l l2 : List HTree}
    (heq : l2.map HTree.marked = l.map HTree.marked)
    (h : ∀ t ∈ l, t.marked = false) : ∀ t ∈ l2, t.marked = false := by
  intro t ht
  have hmem : t.marked ∈ l2.map HTree.marked := List.mem_map_of_mem _ ht
  rw [heq] at hmem
  obtain ⟨t0, ht0, heq2⟩ := List.mem_map.mp hmem
  rw [← heq2]
  exact h t0 ht0

/-- `cut` only adds unmarked items to the root list and only marks
non-roots: it preserves an unmarked root list. -/
theorem FibHeap.cutPath_unmarked (h : FibHeap) (path : List Nat)
    (hu : ∀ t ∈ h.roots, t.marked = false) :
    ∀ t ∈ (h.cutPath path).roots, t.marked = false := by
  generalize hn : path.length = n
  induction n using Nat.strong_induction_on generalizing h path with
  | _ n ih =>
    rw [FibHeap.cutPath]
    split
    · exact hu
    · rename_i hlen
      split
      · rename_i item pnode hitem hpnode
        have hroots2 : ∀ t ∈ modifyAt h.roots path.dropLast
            (fun t => t.removeChild (path.getLastD 0)) ++ [item.setMarked false],
            t.marked = false := by
          intro t ht
          rcases List.mem_append.mp ht with hmem | hmem
          · refine unmarked_congr (marked_modifyAt _ _ _ (Or.inr ?_)) hu t hmem
            intro t2
            cases t2
            rfl
          · simp only [List.mem_singleton] at hmem
            subst hmem
            cases item
            rfl
        by_cases hpp : 2 ≤ path.dropLast.length
        · rw [if_pos hpp]
          by_cases hpm : pnode.marked
          · rw [if_pos hpm]
            refine ih path.dropLast.length ?_ _ _ hroots2 rfl
            rw [List.length_dropLast]
            omega
          · rw [if_neg hpm]
            intro t ht
            refine unmarked_congr (marked_modifyAt _ _ _ (Or.inl hpp)) hroots2 t ht
        · rw [if_neg hpp]
          exact hroots2
      · exact hu

/-- Whatever branch a returning `decrease_key` takes, the resulting root
list is the key-updated one, possibly after the cut. -/
theorem FibHeap.decrease_key_ok_roots (h : FibHeap) (path : List Nat) (k : Int)
    (h2 : FibHeap) (hok : h.decrease_key path k = .ok h2) :
    h2.roots = modifyAt h.roots path (fun t => t.setKey k) ∨
    h2.roots = (FibHeap.cutPath
      { h with roots := modifyAt h.roots path (fun t => t.setKey k) } path).roots := by
  unfold FibHeap.decrease_key at hok
  dsimp only at hok
  repeat' split at hok
  all_goals
    first
      | exact Except.noConfusion hok
      | (cases hok
         first
           | (left; rfl)
           | (right; rfl))

/-- A `decrease_key` call that returns preserves an unmarked root list. -/
theorem FibHeap.decrease_key_unmarked (h : FibHeap) (path : List Nat)
    (k : Int) (h2 : FibHeap) (hok : h.decrease_key path k = .ok h2)
    (hu : ∀ t ∈ h.roots, t.marked = false) :
    ∀ t ∈ h2.roots, t.marked = false := by
  have hukey : ∀ t ∈ modifyAt h.roots path (fun t => t.setKey k),
      t.marked = false := by
    refine unmarked_congr (marked_modifyAt _ _ _ (Or.inr ?_)) hu
    intro t2
    cases t2
    rfl
  rcases FibHeap.decrease_key_ok_roots h path k h2 hok with hr | hr
  · intro t ht
    rw [hr] at ht
    exact hukey t ht
  · intro t ht
    rw [hr] at ht
    exact FibHeap.cutPath_unmarked
      { h with roots := modifyAt h.roots path (fun t => t.setKey k) } path
      hukey t ht

/-- Counterexample state for C3: seed with key `0`, insert keys `1`–`4`,
extract the minimum (building one order-2 tree), decrease the bottom key
`4` to `2` (cutting it and marking its former parent, key `3`), then
extract the minimum again: the marked item with key `3` is promoted into
the root list and survives consolidation unlinked. -/
def markedScenario : FibHeap :=
  let h0 := ((((FibHeap.init1 (FibHeapHItem 0)).insert
    (FibHeapHItem 1)).insert (FibHeapHItem 2)).insert
    (FibHeapHItem 3)).insert (FibHeapHItem 4)
  let h1 := (h0.extract_min).2
  match h1.decrease_key [0, 1, 0] 2 with
  | .ok h2 => (h2.extract_min).2
  | .error _ => h1

/-- Counterexample for C3: after the final `extract_min` of the scenario,
the root list's marks are `[false, true]` — the claim that every root is
unmarked after every public operation fails (children of the extracted
minimum keep their marks). -/
theorem markedScenario_marked_root :
    markedScenario.roots.map HTree.marked = [false, true] := by
  simp [markedScenario, FibHeap.init1, FibHeap.insert, FibHeapHItem,
    FibHeap.extract_min, FibHeap.consolidate, consolidatePass,
    consolidateLoop, dictFind, dictErase, cdllDeleteAt, HTree.link,
    HTree.key, HTree.degree, HTree.children, HTree.setMarked,
    FibHeap.decrease_key, nodeAt, modifyAt, modifyIdx, HTree.setKey,
    FibHeap.cutPath, HTree.removeChild, HTree.setChildren, HTree.marked]

/-- C3 (amended): `insert` of a fresh (unmarked) item, `merge` (when it
returns), and `decrease_key` (when it returns) each preserve an unmarked
root list; `first` does not modify the heap.  `extract_min` — and `delete`,
which ends in `extract_min` — do not: children of the extracted minimum
keep their marks (see `markedScenario_marked_root`). -/
theorem FibHeap.ops_preserve_unmarked :
    (∀ (h : FibHeap) (item : HTree), RootsUnmarked h → item.marked = false →
      RootsUnmarked (h.insert item)) ∧
    (∀ (h g hm : FibHeap), RootsUnmarked h → RootsUnmarked g →
      h.merge g = .ok hm → RootsUnmarked hm) ∧
    (∀ (h : FibHeap) (path : List Nat) (k : Int) (h2 : FibHeap),
      RootsUnmarked h → h.decrease_key path k = .ok h2 → RootsUnmarked h2) := by
  refine ⟨?_, ?_, ?_⟩
  · intro h item hu hitem t ht
    simp only [FibHeap.insert, List.mem_append, List.mem_singleton] at ht
    rcases ht with ht | ht
    · exact hu t ht
    · subst ht
      exact hitem
  · intro h g hm hu hg hok t ht
    unfold FibHeap.merge at hok
    repeat' split at hok
    all_goals first
      | exact Except.noConfusion hok
      | (cases hok
         simp only [List.mem_append] at ht
         rcases ht with ht | ht
         · exact hu t ht
         · exact hg t ht)
  · intro h path k h2 hu hok
    exact FibHeap.decrease_key_unmarked h path k h2 hok hu

/-- Seeded heaps have unmarked roots. -/
theorem init1_unmarked (k : Int) : RootsUnmarked (FibHeap.init1 (FibHeapHItem k)) := by
  intro t ht
  simp only [FibHeap.init1, List.mem_singleton] at ht
  subst ht
  rfl

/-- Witness for C3 (amended): the three components at concrete heaps —
an insert into a seeded heap, a merge of two seeded heaps, and a
`decrease_key` of the only root of a seeded heap. -/
theorem FibHeap.ops_preserve_unmarked_witness :
    RootsUnmarked ((FibHeap.init1 (FibHeapHItem 0)).insert (FibHeapHItem 1)) ∧
    RootsUnmarked (FibHeap.mk [FibHeapHItem 0, FibHeapHItem 5] (some 0) 2) ∧
    RootsUnmarked (FibHeap.mk [HTree.node 3 false 0 []] (some 0) 1) :=
  ⟨FibHeap.ops_preserve_unmarked.1 (FibHeap.init1 (FibHeapHItem 0))
      (FibHeapHItem 1) (init1_unmarked 0) rfl,
   FibHeap.ops_preserve_unmarked.2.1 (FibHeap.init1 (FibHeapHItem 0))
      (FibHeap.init1 (FibHeapHItem 5)) _ (init1_unmarked 0) (init1_unmarked 5) rfl,
   FibHeap.ops_preserve_unmarked.2.2 (FibHeap.init1 (FibHeapHItem 5)) [0] 3 _
      (init1_unmarked 5) rfl⟩

/-! ### C4: merge dereferences the minima unconditionally -/

/-- C4 (evaluation at the failing input): merging a heap that has become
empty (seed with key `5`, then `extract_min`) with a heap holding key `3`
raises `AttributeError`: `FibHeap.merge` evaluates
`self.min.key > another.min.key` and `self.min` is `None`.  The claim (and
the specification) require the merge to succeed with `min` taken from the
non-empty side. -/
theorem FibHeap.merge_empty_attribute_error :
    (((FibHeap.init1 (FibHeapHItem 5)).extract_min).2).merge
      (FibHeap.init1 (FibHeapHItem 3)) = .error .attributeError := by
  rfl

/-! ### C1: draining a heap returns keys in non-decreasing order

The verification works with the multiset of keys stored in a root list and
the heap-order of each root tree. -/

mutual
/-- All keys in a heap item's subtree (itself and its descendants). -/
def HTree.allKeys : HTree → List Int
  | .node k _ _ cs => k :: allKeysL cs

/-- All keys in a list of subtrees. -/
def allKeysL : List HTree → List Int
  | [] => []
  | t :: ts => t.allKeys ++ allKeysL ts
end

mutual
/-- The min-heap property: every child's key is at least its parent's, all
the way down. -/
def HTree.heapOrdered : HTree → Bool
  | .node k _ _ cs => heapOrderedL k cs

/-- Heap property of a list of subtrees below a parent key. -/
def heapOrderedL : Int → List HTree → Bool
  | _, [] => true
  | k, t :: ts => (decide (k ≤ t.key) && t.heapOrdered) && heapOrderedL k ts
end

/-- Induction over heap items via their children. -/
theorem HTree.inductionOn (P : HTree → Prop)
    (step : ∀ k m d cs, (∀ c ∈ cs, P c) → P (HTree.node k m d cs)) :
    ∀ t, P t := fun t =>
  match t with
  | .node k m d cs =>
    step k m d cs (fun c hc => HTree.inductionOn P step c)
termination_by t => sizeOf t
decreasing_by
  have := List.sizeOf_lt_of_mem hc
  simp only [HTree.node.sizeOf_spec]
  omega

/-- Keys of a concatenation. -/
theorem allKeysL_append (l1 l2 : List HTree) :
    allKeysL (l1 ++ l2) = allKeysL l1 ++ allKeysL l2 := by
  induction l1 with
  | nil => rfl
  | cons t ts ih => simp [allKeysL, ih]

/-- Every subtree holds at least its own key. -/
theorem key_mem_allKeys (t : HTree) : t.key ∈ t.allKeys := by
  cases t
  simp [HTree.allKeys, HTree.key]

/-- A subtree's key list is never empty. -/
theorem allKeys_ne_nil (t : HTree) : t.allKeys ≠ [] := by
  cases t
  simp [HTree.allKeys]

/-- A list of subtrees with no keys is empty. -/
theorem eq_nil_of_allKeysL_eq_nil {l : List HTree} (h : allKeysL l = []) :
    l = [] := by
  cases l with
  | nil => rfl
  | cons t ts =>
    simp only [allKeysL, List.append_eq_nil] at h
    exact absurd h.1 (allKeys_ne_nil t)

/-- Membership in the keys of a list of subtrees. -/
theorem mem_allKeysL {x : Int} {l : List HTree} :
    x ∈ allKeysL l ↔ ∃ t ∈ l, x ∈ t.allKeys := by
  induction l with
  | nil => simp [allKeysL]
  | cons t ts ih =>
    simp only [allKeysL, List.mem_append, ih, List.mem_cons]
    constructor
    · rintro (h | ⟨t2, ht2, hx⟩)
      · exact ⟨t, Or.inl rfl, h⟩
      · exact ⟨t2, Or.inr ht2, hx⟩
    · rintro ⟨t2, ht2 | ht2, hx⟩
      · subst ht2
        exact Or.inl hx
      · exact Or.inr ⟨t2, ht2, hx⟩

/-- Unpacking the heap property of a children list. -/
theorem heapOrderedL_mem {k : Int} {l : List HTree} (h : heapOrderedL k l = true) :
    ∀ t ∈ l, k ≤ t.key ∧ t.heapOrdered = true := by
  induction l with
  | nil => simp
  | cons t ts ih =>
    simp only [heapOrderedL, Bool.and_eq_true, decide_eq_true_eq] at h
    intro t2 ht2
    rcases List.mem_cons.mp ht2 with ht2 | ht2
    · subst ht2
      exact ⟨h.1.1, h.1.2⟩
    · exact ih h.2 t2 ht2

/-- Heap property of a concatenated children list. -/
theorem heapOrderedL_append (k : Int) (l1 l2 : List HTree) :
    heapOrderedL k (l1 ++ l2) = (heapOrderedL k l1 && heapOrderedL k l2) := by
  induction l1 with
  | nil => simp [heapOrderedL]
  | cons t ts ih => simp [heapOrderedL, ih, Bool.and_assoc]

/-- A heap-ordered item's key bounds every key of its subtree. -/
theorem heapOrdered_key_le (t : HTree) (ht : t.heapOrdered = true) :
    ∀ x ∈ t.allKeys, t.key ≤ x := by
  induction t using HTree.inductionOn with
  | step k m d cs ih =>
    intro x hx
    simp only [HTree.allKeys, List.mem_cons] at hx
    rcases hx with hx | hx
    · subst hx
      exact le_refl _
    · simp only [HTree.heapOrdered] at ht
      obtain ⟨c, hc, hxc⟩ := mem_allKeysL.mp hx
      obtain ⟨hkc, hcord⟩ := heapOrderedL_mem ht c hc
      exact le_trans hkc (ih c hc hcord x hxc)

/-- Keys and heap order ignore the mark bit. -/
theorem allKeys_setMarked (t : HTree) (b : Bool) :
    (t.setMarked b).allKeys = t.allKeys := by
  cases t
  rfl

/-- Keys and heap order ignore the mark bit. -/
theorem heapOrdered_setMarked (t : HTree) (b : Bool) :
    (t.setMarked b).heapOrdered = t.heapOrdered := by
  cases t
  rfl

/-- Linking concatenates the key lists. -/
theorem allKeys_link (w l : HTree) :
    (w.link l).allKeys = w.allKeys ++ l.allKeys := by
  cases w
  simp [HTree.link, HTree.allKeys, allKeysL_append, allKeysL,
    allKeys_setMarked]

/-- Linking a larger-keyed heap-ordered item below a heap-ordered item
keeps the winner heap-ordered. -/
theorem heapOrdered_link (w l : HTree) (hw : w.heapOrdered = true)
    (hl : l.heapOrdered = true) (hkey : w.key ≤ l.key) :
    (w.link l).heapOrdered = true := by
  cases w
  simp only [HTree.link, HTree.heapOrdered, heapOrderedL_append,
    Bool.and_eq_true] at hw ⊢
  refine ⟨hw, ?_⟩
  have hkeym : (l.setMarked false).key = l.key := by cases l; rfl
  simp only [heapOrderedL, Bool.and_eq_true, decide_eq_true_eq,
    heapOrdered_setMarked, hkeym, Bool.and_true]
  exact ⟨hkey, hl⟩

/-- The multiset of keys stored in a root list. -/
def rootsKeys (l : List HTree) : Multiset Int := (allKeysL l : Multiset Int)

/-- Every root tree satisfies the heap property. -/
def RootsOrdered (l : List HTree) : Prop := ∀ t ∈ l, t.heapOrdered = true

/-- The `min` attribute is trustworthy: absent exactly on the empty heap,
otherwise a root whose key bounds every stored key. -/
def MinOK (h : FibHeap) : Prop :=
  match h.min with
  | none => h.roots = []
  | some i => ∃ t, h.roots[i]? = some t ∧ ∀ x ∈ allKeysL h.roots, t.key ≤ x

/-- Invariant carried through the drain: heap-ordered roots and a
trustworthy `min`. -/
def HeapWF (h : FibHeap) : Prop := RootsOrdered h.roots ∧ MinOK h

/-- `insert` preserves the invariant and appends the inserted subtree's
keys. -/
theorem FibHeap.insert_wf (h : FibHeap) (t : HTree) (hw : HeapWF h)
    (ht : t.heapOrdered = true) :
    HeapWF (h.insert t) ∧
    allKeysL (h.insert t).roots = allKeysL h.roots ++ t.allKeys ∧
    (h.insert t).n = h.n + 1 := by
  obtain ⟨hord, hmin⟩ := hw
  have hkeys : allKeysL (h.roots ++ [t]) = allKeysL h.roots ++ t.allKeys := by
    rw [allKeysL_append]
    simp [allKeysL]
  have hord2 : RootsOrdered (h.roots ++ [t]) := by
    intro t2 ht2
    rcases List.mem_append.mp ht2 with h2 | h2
    · exact hord t2 h2
    · simp only [List.mem_singleton] at h2
      subst h2
      exact ht
  unfold MinOK at hmin
  cases hmn : h.min with
  | none =>
    rw [hmn] at hmin
    have hroots : h.roots = [] := hmin
    have hins : h.insert t
        = FibHeap.mk (h.roots ++ [t]) (some h.roots.length) (h.n + 1) := by
      unfold FibHeap.insert
      rw [hmn]
    rw [hins]
    refine ⟨⟨hord2, ?_⟩, hkeys, rfl⟩
    unfold MinOK
    refine ⟨t, ?_, ?_⟩
    · exact List.getElem?_concat_length h.roots t
    · intro x hx
      rw [hkeys, hroots] at hx
      simp only [allKeysL, List.nil_append] at hx
      exact heapOrdered_key_le t ht x hx
  | some i =>
    rw [hmn] at hmin
    obtain ⟨mt, hmt, hbound⟩ := hmin
    have hilt : i < h.roots.length := (List.getElem?_eq_some.mp hmt).1
    have hins : h.insert t
        = FibHeap.mk (h.roots ++ [t])
            (if mt.key > t.key then some h.roots.length else some i)
            (h.n + 1) := by
      unfold FibHeap.insert
      simp only [hmn, hmt]
    rw [hins]
    refine ⟨⟨hord2, ?_⟩, hkeys, rfl⟩
    unfold MinOK
    by_cases hgt : mt.key > t.key
    · rw [if_pos hgt]
      refine ⟨t, List.getElem?_concat_length h.roots t, ?_⟩
      intro x hx
      rw [hkeys] at hx
      rcases List.mem_append.mp hx with hx | hx
      · exact le_trans (le_of_lt hgt) (hbound x hx)
      · exact heapOrdered_key_le t ht x hx
    · rw [if_neg hgt]
      refine ⟨mt, ?_, ?_⟩
      · rw [List.getElem?_append]
        rw [if_pos hilt]
        exact hmt
      · intro x hx
        rw [hkeys] at hx
        rcases List.mem_append.mp hx with hx | hx
        · exact hbound x hx
        · exact le_trans (le_of_not_lt hgt) (heapOrdered_key_le t ht x hx)

/-- Keys stored in the scratch dictionary. -/
def dictKeys (dict : List (Nat × HTree)) : Multiset Int :=
  (allKeysL (dict.map Prod.snd) : Multiset Int)

/-- Popping a found entry splits off exactly its keys. -/
theorem dictKeys_erase (d : Nat) (dict : List (Nat × HTree)) (other : HTree)
    (hfind : dictFind d dict = some other) :
    dictKeys dict = (other.allKeys : Multiset Int) + dictKeys (dictErase d dict) := by
  induction dict with
  | nil => simp [dictFind] at hfind
  | cons p rest ih =>
    by_cases hd : p.1 = d
    · simp only [dictFind, hd, if_pos] at hfind
      simp only [dictErase, hd, if_pos]
      cases hfind
      simp [dictKeys, allKeysL]
    · simp only [dictFind, hd, if_neg, not_false_iff] at hfind
      simp only [dictErase, hd, if_neg, not_false_iff]
      have ihh := ih hfind
      simp only [dictKeys, List.map_cons, allKeysL] at ihh ⊢
      simp only [← Multiset.coe_add] at ihh ⊢
      rw [ihh]
      abel

/-- Entries of the scratch stay heap-ordered after popping. -/
theorem dictErase_ordered (d : Nat) (dict : List (Nat × HTree))
    (h : ∀ p ∈ dict, p.2.heapOrdered = true) :
    ∀ p ∈ dictErase d dict, p.2.heapOrdered = true :=
  fun p hp => h p ((dictErase_sublist d dict).mem hp)

/-- The found entry is heap-ordered. -/
theorem dictFind_ordered (d : Nat) (dict : List (Nat × HTree)) (other : HTree)
    (hfind : dictFind d dict = some other)
    (h : ∀ p ∈ dict, p.2.heapOrdered = true) : other.heapOrdered = true := by
  induction dict with
  | nil => simp [dictFind] at hfind
  | cons p rest ih =>
    by_cases hd : p.1 = d
    · simp only [dictFind, hd, if_pos] at hfind
      cases hfind
      exact h p (List.mem_cons_self p rest)
    · simp only [dictFind, hd, if_neg, not_false_iff] at hfind
      exact ih hfind (fun q hq => h q (List.mem_cons_of_mem p hq))

/-- The inner consolidation loop keeps every filed root heap-ordered and
conserves the multiset of keys. -/
theorem consolidateLoop_keys (item : HTree) (dict : List (Nat × HTree))
    (hitem : item.heapOrdered = true)
    (hord : ∀ p ∈ dict, p.2.heapOrdered = true) :
    (∀ p ∈ consolidateLoop item dict, p.2.heapOrdered = true) ∧
    dictKeys (consolidateLoop item dict)
      = (item.allKeys : Multiset Int) + dictKeys dict := by
  generalize hn : dict.length = n
  induction n using Nat.strong_induction_on generalizing item dict with
  | _ n ih =>
    rw [consolidateLoop]
    split
    · rename_i hfind
      constructor
      · intro p hp
        rcases List.mem_append.mp hp with hp | hp
        · exact hord p hp
        · simp only [List.mem_singleton] at hp
          subst hp
          exact hitem
      · simp only [dictKeys, List.map_append, allKeysL_append,
          List.map_cons, List.map_nil, allKeysL, List.append_nil]
        simp only [← Multiset.coe_add]
        abel
    · rename_i other hfind
      have herase := dictErase_length_lt item.degree dict other hfind
      have hkeyssplit := dictKeys_erase item.degree dict other hfind
      have hothord := dictFind_ordered item.degree dict other hfind hord
      have heraseord := dictErase_ordered item.degree dict hord
      split
      · rename_i hlt
        have hres := ih _ (by omega) (other.link item) (dictErase item.degree dict)
          (heapOrdered_link other item hothord hitem (le_of_lt hlt))
          heraseord rfl
        refine ⟨hres.1, ?_⟩
        rw [hres.2, allKeys_link, hkeyssplit]
        simp only [← Multiset.coe_add]
        abel
      · rename_i hge
        have hres := ih _ (by omega) (item.link other) (dictErase item.degree dict)
          (heapOrdered_link item other hitem hothord (le_of_not_lt hge))
          heraseord rfl
        refine ⟨hres.1, ?_⟩
        rw [hres.2, allKeys_link, hkeyssplit]
        simp only [← Multiset.coe_add]
        abel

/-- The bunching pass keeps every filed root heap-ordered and conserves the
keys. -/
theorem consolidatePass_keys (l : List HTree) (dict : List (Nat × HTree))
    (hl : ∀ t ∈ l, t.heapOrdered = true)
    (hord : ∀ p ∈ dict, p.2.heapOrdered = true) :
    (∀ p ∈ consolidatePass l dict, p.2.heapOrdered = true) ∧
    dictKeys (consolidatePass l dict)
      = (allKeysL l : Multiset Int) + dictKeys dict := by
  induction l generalizing dict with
  | nil =>
    refine ⟨hord, ?_⟩
    simp [allKeysL, consolidatePass]
  | cons t rest ihl =>
    have hstep := consolidateLoop_keys t dict (hl t (List.mem_cons_self t rest))
      hord
    have hrest := ihl (consolidateLoop t dict)
      (fun t2 ht2 => hl t2 (List.mem_cons_of_mem t ht2)) hstep.1
    refine ⟨hrest.1, ?_⟩
    show dictKeys (consolidatePass rest (consolidateLoop t dict)) = _
    rw [hrest.2, hstep.2]
    simp only [allKeysL]
    simp only [← Multiset.coe_add]
    abel

/-- The rebuild loop preserves the invariant, accumulates the keys and
leaves `n` unchanged (`insert`'s increment is compensated each time). -/
theorem rebuild_wf (vs : List HTree) (acc : FibHeap) (hacc : HeapWF acc)
    (hvs : ∀ t ∈ vs, t.heapOrdered = true) :
    HeapWF (vs.foldl (fun acc item =>
        let acc2 := acc.insert item
        { acc2 with n := acc2.n - 1 }) acc) ∧
    allKeysL (vs.foldl (fun acc item =>
        let acc2 := acc.insert item
        { acc2 with n := acc2.n - 1 }) acc).roots
      = allKeysL acc.roots ++ allKeysL vs ∧
    (vs.foldl (fun acc item =>
        let acc2 := acc.insert item
        { acc2 with n := acc2.n - 1 }) acc).n = acc.n := by
  induction vs generalizing acc with
  | nil => simp [allKeysL, hacc]
  | cons v rest ih =>
    have hv : v.heapOrdered = true := hvs v (List.mem_cons_self v rest)
    have hstep := FibHeap.insert_wf acc v hacc hv
    have hstepwf : HeapWF { acc.insert v with n := (acc.insert v).n - 1 } := by
      obtain ⟨ho, hm⟩ := hstep.1
      exact ⟨ho, hm⟩
    have hres := ih { acc.insert v with n := (acc.insert v).n - 1 } hstepwf
      (fun t ht => hvs t (List.mem_cons_of_mem v ht))
    rw [List.foldl_cons]
    refine ⟨hres.1, ?_, ?_⟩
    · rw [hres.2.1]
      show allKeysL (acc.insert v).roots ++ allKeysL rest = _
      rw [hstep.2.1]
      simp [allKeysL]
    · rw [hres.2.2]
      show (acc.insert v).n - 1 = acc.n
      rw [hstep.2.2]
      omega

/-- `consolidate` restores the full invariant on a non-empty heap-ordered
root list, conserving keys and `n`. -/
theorem FibHeap.consolidate_spec (h : FibHeap) (hord : RootsOrdered h.roots)
    (hne : h.roots ≠ []) :
    HeapWF (h.consolidate) ∧
    rootsKeys (h.consolidate).roots = rootsKeys h.roots ∧
    (h.consolidate).n = h.n := by
  have hpass := consolidatePass_keys h.roots [] hord (by simp)
  have hpassne := consolidatePass_ne_nil h.roots [] (Or.inl hne)
  unfold FibHeap.consolidate
  cases hvals : (consolidatePass h.roots []).map Prod.snd with
  | nil => exact absurd (List.map_eq_nil_iff.mp hvals) hpassne
  | cons v vs =>
    have hvord : ∀ t ∈ v :: vs, t.heapOrdered = true := by
      intro t ht
      rw [← hvals] at ht
      obtain ⟨p, hp, hpt⟩ := List.mem_map.mp ht
      rw [← hpt]
      exact hpass.1 p hp
    have hv : v.heapOrdered = true := hvord v (List.mem_cons_self v vs)
    have hacc : HeapWF (FibHeap.mk [v] (some 0) h.n) := by
      refine ⟨?_, ?_⟩
      · intro t ht
        simp only [List.mem_singleton] at ht
        subst ht
        exact hv
      · refine ⟨v, rfl, ?_⟩
        intro x hx
        simp only [allKeysL, List.append_nil] at hx
        exact heapOrdered_key_le v hv x hx
    have hres := rebuild_wf vs (FibHeap.mk [v] (some 0) h.n) hacc
      (fun t ht => hvord t (List.mem_cons_of_mem v ht))
    refine ⟨hres.1, ?_, hres.2.2⟩
    unfold rootsKeys
    rw [hres.2.1]
    have hkeysd : dictKeys (consolidatePass h.roots [])
        = (allKeysL h.roots : Multiset Int) := by
      rw [hpass.2]
      simp [dictKeys, allKeysL]
    rw [← hkeysd]
    unfold dictKeys
    rw [hvals]
    simp only [allKeysL]
    simp only [← Multiset.coe_add]
    abel

/-- A subtree's key list splits off its root key. -/
theorem allKeys_eq_key_cons (t : HTree) :
    t.allKeys = t.key :: allKeysL t.children := by
  cases t
  rfl

/-- Deleting a found member of a ring splits off exactly its keys (the
remainder is a rotation). -/
theorem cdllDeleteAt_keys (l : List HTree) (i : Nat) (cm : HTree)
    (h : l[i]? = some cm) :
    (allKeysL l : Multiset Int)
      = (cm.allKeys : Multiset Int) + (allKeysL (cdllDeleteAt l i) : Multiset Int) := by
  obtain ⟨hlt, hget⟩ := List.getElem?_eq_some.mp h
  have hdecomp : l = l.take i ++ cm :: l.drop (i + 1) := by
    conv_lhs => rw [← List.take_append_drop i l]
    rw [List.drop_eq_getElem_cons hlt, hget]
  unfold cdllDeleteAt
  by_cases hlen : l.length ≤ 1
  · rw [if_pos hlen]
    have hl1 : l = [cm] := by
      have h0 : i = 0 := by omega
      subst h0
      cases l with
      | nil => simp at hlt
      | cons a rest =>
        simp only [List.length_cons] at hlen
        have : rest = [] := List.eq_nil_of_length_eq_zero (by omega)
        subst this
        simp only [List.getElem?_cons_zero, Option.some.injEq] at h
        rw [h]
    rw [hl1]
    simp [allKeysL]
  · rw [if_neg hlen]
    conv_lhs => rw [hdecomp]
    rw [allKeysL_append, allKeysL_append]
    simp only [allKeysL, allKeys_eq_key_cons]
    simp only [← Multiset.coe_add, ← Multiset.cons_coe, ← Multiset.singleton_add]
    abel

/-- Members of the rotated ring were members of the ring. -/
theorem cdllDeleteAt_mem (l : List HTree) (i : Nat) (t : HTree)
    (ht : t ∈ cdllDeleteAt l i) : t ∈ l := by
  unfold cdllDeleteAt at ht
  split at ht
  · simp at ht
  · rcases List.mem_append.mp ht with h2 | h2
    · exact List.mem_of_mem_drop h2
    · exact List.mem_of_mem_take h2

/-- `extract_min` on a non-empty well-formed heap returns the reigning
minimum; the remaining heap is well-formed, holds the remaining keys and
has `n` one lower. -/
theorem FibHeap.extract_min_spec (h : FibHeap) (i : Nat)
    (hw : HeapWF h) (hmin : h.min = some i) :
    ∃ cm h2, h.extract_min = (some cm, h2) ∧ HeapWF h2 ∧
      rootsKeys h.roots = cm.key ::ₘ rootsKeys h2.roots ∧
      (∀ x ∈ allKeysL h.roots, cm.key ≤ x) ∧ h2.n = h.n - 1 := by
  obtain ⟨hord, hminok⟩ := hw
  unfold MinOK at hminok
  rw [hmin] at hminok
  obtain ⟨cm, hmt, hbound⟩ := hminok
  have hcmord : cm.heapOrdered = true := hord cm (List.getElem?_mem hmt)
  have hchildord : ∀ c ∈ cm.children, c.heapOrdered = true := by
    intro c hc
    cases cm with
    | node k m d cs =>
      simp only [HTree.heapOrdered] at hcmord
      simp only [HTree.children] at hc
      exact (heapOrderedL_mem hcmord c hc).2
  have hroots1ord : RootsOrdered (h.roots ++ cm.children) := by
    intro t ht
    rcases List.mem_append.mp ht with h2 | h2
    · exact hord t h2
    · exact hchildord t h2
  have hroots1i : (h.roots ++ cm.children)[i]? = some cm := by
    rw [List.getElem?_append]
    rw [if_pos (List.getElem?_eq_some.mp hmt).1]
    exact hmt
  have hroots2ord : RootsOrdered (cdllDeleteAt (h.roots ++ cm.children) i) :=
    fun t ht => hroots1ord t (cdllDeleteAt_mem _ _ t ht)
  have hkeysplit := cdllDeleteAt_keys (h.roots ++ cm.children) i cm hroots1i
  have hkeymain : rootsKeys h.roots
      = cm.key ::ₘ rootsKeys (cdllDeleteAt (h.roots ++ cm.children) i) := by
    unfold rootsKeys
    rw [allKeysL_append] at hkeysplit
    rw [allKeys_eq_key_cons] at hkeysplit
    simp only [← Multiset.coe_add, ← Multiset.cons_coe,
      ← Multiset.singleton_add] at hkeysplit
    have halg : (allKeysL h.roots : Multiset Int) + ↑(allKeysL cm.children)
        = (({cm.key} : Multiset Int)
            + ↑(allKeysL (cdllDeleteAt (h.roots ++ cm.children) i)))
          + ↑(allKeysL cm.children) := by
      rw [hkeysplit]
      abel
    have hc := add_right_cancel halg
    rw [hc, Multiset.singleton_add]
  unfold FibHeap.extract_min
  simp only [hmin, hmt]
  by_cases hempty : (cdllDeleteAt (h.roots ++ cm.children) i).isEmpty
  · rw [if_pos hempty]
    refine ⟨cm, _, rfl, ⟨?_, ?_⟩, hkeymain, hbound, rfl⟩
    · exact hroots2ord
    · unfold MinOK
      exact List.isEmpty_iff.mp hempty
  · rw [if_neg hempty]
    have hne : cdllDeleteAt (h.roots ++ cm.children) i ≠ [] := by
      intro hcon
      rw [hcon] at hempty
      exact hempty rfl
    have hcons := FibHeap.consolidate_spec
      (FibHeap.mk (cdllDeleteAt (h.roots ++ cm.children) i) none (h.n - 1))
      hroots2ord hne
    refine ⟨cm, _, rfl, hcons.1, ?_, hbound, hcons.2.2⟩
    rw [hcons.2.1]
    exact hkeymain

/-- Repeatedly call `extract_min`, collecting the returned keys (stopping
early if an extraction returns `None`). -/
def drainN : FibHeap → Nat → List Int × FibHeap
  | h, 0 => ([], h)
  | h, m + 1 =>
    match h.extract_min with
    | (none, h2) => ([], h2)
    | (some t, h2) =>
      let r := drainN h2 m
      (t.key :: r.1, r.2)

/-- Draining a well-formed heap to exhaustion returns its keys in
non-decreasing order and leaves the empty heap. -/
theorem drain_spec : ∀ (m : Nat) (h : FibHeap), HeapWF h →
    Multiset.card (rootsKeys h.roots) = m →
    (drainN h m).1.Sorted (· ≤ ·) ∧
    ((drainN h m).1 : Multiset Int) = rootsKeys h.roots ∧
    (drainN h m).2.roots = [] ∧ (drainN h m).2.min = none ∧
    (drainN h m).2.n = h.n - m := by
  intro m
  induction m with
  | zero =>
    intro h hw hcard
    have hkeysnil : allKeysL h.roots = [] := by
      have h0 : (allKeysL h.roots : Multiset Int) = 0 := by
        have h1 := Multiset.card_eq_zero.mp hcard
        simpa [rootsKeys] using h1
      exact (Multiset.coe_eq_zero (allKeysL h.roots)).mp h0
    have hroots : h.roots = [] := eq_nil_of_allKeysL_eq_nil hkeysnil
    have hminnone : h.min = none := by
      obtain ⟨hord, hminok⟩ := hw
      unfold MinOK at hminok
      cases hmn : h.min with
      | none => rfl
      | some i =>
        rw [hmn] at hminok
        obtain ⟨t, hmt, _⟩ := hminok
        rw [hroots] at hmt
        simp at hmt
    refine ⟨List.sorted_nil, ?_, hroots, hminnone, by simp [drainN]⟩
    unfold rootsKeys
    rw [hkeysnil]
    rfl
  | succ m ih =>
    intro h hw hcard
    have hminsome : ∃ i, h.min = some i := by
      obtain ⟨hord, hminok⟩ := hw
      unfold MinOK at hminok
      cases hmn : h.min with
      | some i => exact ⟨i, rfl⟩
      | none =>
        rw [hmn] at hminok
        rw [hminok] at hcard
        simp [rootsKeys, allKeysL] at hcard
    obtain ⟨i, hmin⟩ := hminsome
    obtain ⟨cm, h2, hex, hw2, hkeys, hbound, hn2⟩ :=
      FibHeap.extract_min_spec h i hw hmin
    have hcard2 : Multiset.card (rootsKeys h2.roots) = m := by
      rw [hkeys] at hcard
      simp only [Multiset.card_cons] at hcard
      omega
    have hres := ih h2 hw2 hcard2
    have hstep : drainN h (m + 1) = (cm.key :: (drainN h2 m).1, (drainN h2 m).2) := by
      simp only [drainN, hex]
    rw [hstep]
    refine ⟨?_, ?_, hres.2.2.1, hres.2.2.2.1, ?_⟩
    · refine List.sorted_cons.mpr ⟨?_, hres.1⟩
      intro b hb
      have hbmem : b ∈ ((drainN h2 m).1 : Multiset Int) := by
        exact_mod_cast hb
      rw [hres.2.1] at hbmem
      have hbmem2 : b ∈ rootsKeys h.roots := by
        rw [hkeys]
        exact Multiset.mem_cons_of_mem hbmem
      have hbmem3 : b ∈ allKeysL h.roots := by
        simpa [rootsKeys] using hbmem2
      exact hbound b hbmem3
    · show ((cm.key :: (drainN h2 m).1 : List Int) : Multiset Int) = _
      rw [← Multiset.cons_coe, hres.2.1, ← hkeys]
    · rw [hres.2.2.2.2, hn2]
      push_cast
      ring

/-- The heap built by seeding the constructor with the first key and
`insert`ing the remaining keys as fresh items, left to right. -/
def buildHeap (k0 : Int) (ks : List Int) : FibHeap :=
  ks.foldl (fun h k => h.insert (FibHeapHItem k)) (FibHeap.init1 (FibHeapHItem k0))

/-- Folding fresh single-key inserts over a well-formed heap. -/
theorem insert_fold_spec (ks : List Int) (acc : FibHeap) (hacc : HeapWF acc) :
    HeapWF (ks.foldl (fun h k => h.insert (FibHeapHItem k)) acc) ∧
    allKeysL (ks.foldl (fun h k => h.insert (FibHeapHItem k)) acc).roots
      = allKeysL acc.roots ++ ks ∧
    (ks.foldl (fun h k => h.insert (FibHeapHItem k)) acc).n = acc.n + ks.length := by
  induction ks generalizing acc with
  | nil => simp [hacc]
  | cons k rest ih =>
    have hleaf : (FibHeapHItem k).heapOrdered = true := rfl
    have hstep := FibHeap.insert_wf acc (FibHeapHItem k) hacc hleaf
    have hres := ih (acc.insert (FibHeapHItem k)) hstep.1
    rw [List.foldl_cons]
    refine ⟨hres.1, ?_, ?_⟩
    · rw [hres.2.1, hstep.2.1]
      simp [FibHeapHItem, HTree.allKeys, allKeysL]
    · rw [hres.2.2, hstep.2.2]
      simp only [List.length_cons]
      push_cast
      ring

/-- The built heap is well-formed, holds exactly the given keys, and counts
them. -/
theorem buildHeap_spec (k0 : Int) (ks : List Int) :
    HeapWF (buildHeap k0 ks) ∧
    allKeysL (buildHeap k0 ks).roots = k0 :: ks ∧
    (buildHeap k0 ks).n = 1 + ks.length := by
  have hinit : HeapWF (FibHeap.init1 (FibHeapHItem k0)) := by
    refine ⟨?_, ?_⟩
    · intro t ht
      simp only [FibHeap.init1, List.mem_singleton] at ht
      subst ht
      rfl
    · refine ⟨FibHeapHItem k0, rfl, ?_⟩
      intro x hx
      simp only [FibHeap.init1, allKeysL, FibHeapHItem, HTree.allKeys,
        List.append_nil, List.mem_singleton] at hx
      subst hx
      exact le_refl _
  have hres := insert_fold_spec ks (FibHeap.init1 (FibHeapHItem k0)) hinit
  unfold buildHeap
  refine ⟨hres.1, ?_, ?_⟩
  · rw [hres.2.1]
    simp [FibHeap.init1, allKeysL, FibHeapHItem, HTree.allKeys]
  · rw [hres.2.2]
    simp [FibHeap.init1]
    try ring

/-- Counterexample for C1 as stated: constructing the empty Fibonacci heap
(`FibHeap()` with no starting item) raises `AttributeError` — the
constructor evaluates `self.n - 0` before `n` was ever assigned — so the
claimed scenario of inserting into a newly constructed empty heap cannot
begin. -/
theorem FibHeap.init0_attribute_error :
    FibHeap.init0 = Except.error PyErr.attributeError := rfl

/-- C1 (amended): for every non-empty finite sequence of keys — the first
seeding the constructor, the rest inserted — repeatedly calling
`extract_min` returns all the items in non-decreasing key order, and the
heap is empty (no roots, no `min`, `n = 0`) after all items are
extracted. -/
theorem FibHeap.drain_sorted (k0 : Int) (ks : List Int) :
    (drainN (buildHeap k0 ks) (ks.length + 1)).1.Sorted (· ≤ ·) ∧
    (drainN (buildHeap k0 ks) (ks.length + 1)).1.Perm (k0 :: ks) ∧
    (drainN (buildHeap k0 ks) (ks.length + 1)).2.roots = [] ∧
    (drainN (buildHeap k0 ks) (ks.length + 1)).2.min = none ∧
    (drainN (buildHeap k0 ks) (ks.length + 1)).2.n = 0 := by
  obtain ⟨hw, hkeys, hn⟩ := buildHeap_spec k0 ks
  have hcard : Multiset.card (rootsKeys (buildHeap k0 ks).roots)
      = ks.length + 1 := by
    unfold rootsKeys
    rw [hkeys]
    simp
  have hres := drain_spec (ks.length + 1) (buildHeap k0 ks) hw hcard
  refine ⟨hres.1, ?_, hres.2.2.1, hres.2.2.2.1, ?_⟩
  · apply Multiset.coe_eq_coe.mp
    rw [hres.2.1]
    unfold rootsKeys
    rw [hkeys]
  · rw [hres.2.2.2.2, hn]
    push_cast
    ring
